import Mathlib

/-!
# Verification of the TTML lyric-processing core

Shallow embedding, in Lean 4, of the lyric-processing core of the
`applemusic-like-lyrics-page` repository
(`packages/player/src-tauri/src/ttml_processor/`), together with theorems
settling the specification claims about it.

The embedding mirrors the Rust source function by function:
* machine integers (`u64`) are modelled as `Nat` (the claims under study never
  exercise `u64` overflow);
* Rust `f64` arithmetic in the `"12.345s"` time branch and in the word
  splitter is modelled with exact rational arithmetic (`Rat`); for the
  success-vs-error behaviour and for all the concrete values appearing in the
  claims the two agree, and the structural properties proved (interval
  tiling) hold for any value of the rounded quantities;
* strings are handled as their underlying character lists; Rust byte-level
  operations (UTF-8 slicing) are modelled through per-character UTF-8 sizes;
* external crates (the `regex` engine for user-supplied patterns, the
  `ferrous_opencc` converter, the `unicode_segmentation` grapheme iterator)
  are abstracted as explicit function parameters, except the fixed built-in
  agent-recognizer pattern, which is modelled concretely;
* fallible code returns `Option` (`none` models an `InvalidTime` error for
  the time decoder, and a panic for the prefix-removal routine).
-/

namespace TtmlProcessor

/-! ## Basic character utilities

`rustIsWhitespace` models Rust's `char::is_whitespace`, i.e. membership in
the Unicode `White_Space` property. -/

def rustIsWhitespace (c : Char) : Bool :=
  c = ' ' ∨ c = '\t' ∨ c = '\n' ∨ c.val = 0x0B ∨ c.val = 0x0C ∨ c = '\r' ∨
  c.val = 0x85 ∨ c.val = 0xA0 ∨ c.val = 0x1680 ∨
  (0x2000 ≤ c.val ∧ c.val ≤ 0x200A) ∨
  c.val = 0x2028 ∨ c.val = 0x2029 ∨ c.val = 0x202F ∨ c.val = 0x205F ∨
  c.val = 0x3000

/-- Numeric value of an ASCII digit. -/
def digitVal (c : Char) : Nat := c.toNat - '0'.toNat

/-- Value of a list of ASCII digit characters read in base 10. -/
def digitsToNat (cs : List Char) : Nat :=
  cs.foldl (fun acc c => acc * 10 + digitVal c) 0

/-- Model of Rust's `str::split(sep)` on a single-character separator:
splitting an empty string yields `[[]]`, and `n` separators yield `n + 1`
(possibly empty) fields. -/
def splitOnChar (sep : Char) : List Char → List (List Char)
  | [] => [[]]
  | c :: rest =>
    if c = sep then [] :: splitOnChar sep rest
    else
      match splitOnChar sep rest with
      | [] => [[c]]
      | h :: t => (c :: h) :: t

theorem splitOnChar_ne_nil (sep : Char) (cs : List Char) :
    splitOnChar sep cs ≠ [] := by
  induction cs with
  | nil => simp [splitOnChar]
  | cons c rest ih =>
    simp only [splitOnChar]
    split
    · simp
    · cases h : splitOnChar sep rest <;> simp

/-! ## Model of `parse_ttml_time_to_ms` (ttml_parser.rs, lines 1422-1586) -/

/-- Model of Rust's `u64::from_str`: an optional leading `'+'`, then one or
more ASCII digits, with the value required to fit in a `u64`.  `none` models
`Err(ParseIntError)` (mapped by the decoder to an `InvalidTime` error). -/
def rustParseU64 (cs : List Char) : Option Nat :=
  let body := match cs with
    | '+' :: rest => rest
    | other => other
  if body = [] then none
  else if body.all Char.isDigit then
    let v := digitsToNat body
    if v < 2 ^ 64 then some v else none
  else none

/-- Model of the closure `parse_ms_part` in `parse_ttml_time_to_ms`:
the fractional part must be 1 to 3 ASCII digits and is right-padded to
milliseconds (`.1` → 100 ms, `.12` → 120 ms, `.123` → 123 ms). -/
def parse_ms_part (cs : List Char) : Option Nat :=
  if cs = [] ∨ cs.length > 3 ∨ ¬ cs.all Char.isDigit then none
  else some (digitsToNat cs * 10 ^ (3 - cs.length))

/-- Parses one colon-separated seconds field `SS[.mmm]` into
`(seconds, milliseconds)`, mirroring the `dot_parts` handling of
`parse_ttml_time_to_ms` (empty integer part and more than one `'.'` are
`InvalidTime` errors). -/
def parseSecondsField (cs : List Char) : Option (Nat × Nat) :=
  match splitOnChar '.' cs with
  | [intPart] =>
    if intPart = [] then none
    else (rustParseU64 intPart).map (fun sec => (sec, 0))
  | [intPart, msPart] =>
    if intPart = [] then none
    else do
      let sec ← rustParseU64 intPart
      let ms ← parse_ms_part msPart
      pure (sec, ms)
  | _ => none

/-- The final range checks of `parse_ttml_time_to_ms`: minutes must be
`< 60` always, and seconds must be `< 60` whenever the input had more than
one colon-separated component. -/
def timeRangeCheck (numColonParts hours minutes seconds ms : Nat) : Option Nat :=
  if 60 ≤ minutes then none
  else if 1 < numColonParts ∧ 60 ≤ seconds then none
  else some (hours * 3600000 + minutes * 60000 + seconds * 1000 + ms)

/-- Restricted model of Rust's `f64::from_str` used by the `"12.345s"`
branch: an optional sign, then a plain decimal literal (digits with at most
one `'.'`, at least one digit overall).  The parsed magnitude is the exact
rational `intVal + fracVal / 10 ^ fracLen`, represented by the triple
`(intVal, fracVal, fracLen)` of naturals; the first component of the result
records whether the sign was negative.  The exponent / `inf` / `nan` forms
of the full Rust grammar are not modelled; no input exercised by the claims
uses them. -/
def f64Sign (cs : List Char) : Bool × List Char :=
  match cs with
  | c :: rest =>
    if c = '-' then (true, rest)
    else if c = '+' then (false, rest)
    else (false, c :: rest)
  | [] => (false, [])

def parseF64Decimal (cs : List Char) : Option (Bool × Nat × Nat × Nat) :=
  let neg := (f64Sign cs).1
  let body := (f64Sign cs).2
  match splitOnChar '.' body with
  | [intPart] =>
    if intPart ≠ [] ∧ intPart.all Char.isDigit then
      some (neg, digitsToNat intPart, 0, 0)
    else none
  | [intPart, fracPart] =>
    if (intPart ≠ [] ∨ fracPart ≠ []) ∧ intPart.all Char.isDigit ∧
        fracPart.all Char.isDigit then
      some (neg, digitsToNat intPart, digitsToNat fracPart, fracPart.length)
    else none
  | _ => none

/-- The `"12.345s"` branch of `parse_ttml_time_to_ms`: the input (with the
trailing `'s'` already stripped) must be non-empty, must not start or end
with `'.'`, must parse as a non-negative number, and `seconds * 1000` must
not exceed `u64::MAX`; the result is rounded to the nearest millisecond,
half away from zero.  The floating-point value `seconds * 1000.0` of the
Rust code is the exact rational `num / den` below; the overflow comparison
and the rounding `⌊num / den + 1 / 2⌋ = (2 * num + den) / (2 * den)` are
carried out exactly on that fraction. -/
def parseSecondsSuffixForm (cs : List Char) : Option Nat :=
  if cs = [] ∨ cs.head? = some '.' ∨ cs.getLast? = some '.' then none
  else
    match parseF64Decimal cs with
    | none => none
    | some (neg, intVal, fracVal, fracLen) =>
      if neg then none
      else
        let num := (intVal * 10 ^ fracLen + fracVal) * 1000
        let den := 10 ^ fracLen
        if (2 ^ 64 - 1) * den < num then none
        else some ((2 * num + den) / (2 * den))

/-- Core of `parse_ttml_time_to_ms` over the character list of the input. -/
def parseTimeCore (cs : List Char) : Option Nat :=
  if cs.getLast? = some 's' then parseSecondsSuffixForm cs.dropLast
  else
    match splitOnChar ':' cs with
    | [secField] => do
      let (sec, ms) ← parseSecondsField secField
      timeRangeCheck 1 0 0 sec ms
    | [minField, secField] => do
      let minutes ← rustParseU64 minField
      let (sec, ms) ← parseSecondsField secField
      timeRangeCheck 2 0 minutes sec ms
    | [hourField, minField, secField] => do
      let hours ← rustParseU64 hourField
      let minutes ← rustParseU64 minField
      let (sec, ms) ← parseSecondsField secField
      timeRangeCheck 3 hours minutes sec ms
    | _ => none

/-- Model of `parse_ttml_time_to_ms` (ttml_parser.rs:1422): parses a TTML
time code to milliseconds; `none` models `Err(ConvertError::InvalidTime)`. -/
def parse_ttml_time_to_ms (s : String) : Option Nat :=
  parseTimeCore s.data

/-! ### Supporting lemmas for the time-code decoder -/

theorem rustParseU64_neg (r : List Char) : rustParseU64 ('-' :: r) = none := by
  simp [rustParseU64, Char.isDigit]

theorem splitOnChar_cons_of_ne (sep c : Char) (cs : List Char) (h : ¬ c = sep) :
    ∃ h0 t0, splitOnChar sep cs = h0 :: t0 ∧
      splitOnChar sep (c :: cs) = (c :: h0) :: t0 := by
  cases heq : splitOnChar sep cs with
  | nil => exact absurd heq (splitOnChar_ne_nil sep cs)
  | cons h0 t0 =>
    refine ⟨h0, t0, rfl, ?_⟩
    simp only [splitOnChar, if_neg h, heq]

theorem splitOnChar_eq_single (sep : Char) (cs : List Char)
    (h : ∀ c ∈ cs, ¬ c = sep) : splitOnChar sep cs = [cs] := by
  induction cs with
  | nil => rfl
  | cons c rest ih =>
    have hc : ¬ c = sep := h c (by simp)
    have hrest := ih (fun x hx => h x (by simp [hx]))
    simp only [splitOnChar, if_neg hc, hrest]

theorem parseSecondsField_neg (x : List Char) :
    parseSecondsField ('-' :: x) = none := by
  unfold parseSecondsField
  obtain ⟨h0, t0, _, heq2⟩ := splitOnChar_cons_of_ne '.' '-' x (by decide)
  rw [heq2]
  cases t0 with
  | nil => simp [rustParseU64_neg]
  | cons a b =>
    cases b with
    | nil => simp [rustParseU64_neg]
    | cons a2 b2 => rfl

theorem parseF64Decimal_neg_sign (r : List Char) (p : Bool × Nat × Nat × Nat)
    (h : parseF64Decimal ('-' :: r) = some p) : p.1 = true := by
  unfold parseF64Decimal at h
  rw [show f64Sign ('-' :: r) = (true, r) from rfl] at h
  dsimp only at h
  split at h
  · split at h
    · cases h; rfl
    · cases h
  · split at h
    · cases h; rfl
    · cases h
  · cases h

/-- A digit list read in base 10 is smaller than `10 ^ length`. -/
theorem digitsToNat_lt_aux (cs : List Char) (acc : Nat) (h : cs.all Char.isDigit) :
    cs.foldl (fun a c => a * 10 + digitVal c) acc < (acc + 1) * 10 ^ cs.length := by
  induction cs generalizing acc with
  | nil => simp
  | cons c rest ih =>
    simp only [List.all_cons, Bool.and_eq_true] at h
    have hd : digitVal c ≤ 9 := by
      rcases h with ⟨hc, -⟩
      unfold Char.isDigit at hc
      simp only [Bool.and_eq_true, decide_eq_true_eq] at hc
      obtain ⟨h1, h2⟩ := hc
      have g1 : (48 : UInt32).toNat ≤ c.val.toNat := h1
      have g2 : c.val.toNat ≤ (57 : UInt32).toNat := h2
      have e1 : (48 : UInt32).toNat = 48 := rfl
      have e2 : (57 : UInt32).toNat = 57 := rfl
      rw [e1] at g1
      rw [e2] at g2
      show c.toNat - ('0' : Char).toNat ≤ 9
      have e4 : ('0' : Char).toNat = 48 := rfl
      have e5 : c.toNat = c.val.toNat := rfl
      rw [e4, e5]
      omega
    have := ih (acc * 10 + digitVal c) h.2
    calc (c :: rest).foldl (fun a c => a * 10 + digitVal c) acc
        = rest.foldl (fun a c => a * 10 + digitVal c) (acc * 10 + digitVal c) := rfl
      _ < (acc * 10 + digitVal c + 1) * 10 ^ rest.length := this
      _ ≤ ((acc + 1) * 10) * 10 ^ rest.length := by
          apply Nat.mul_le_mul_right
          omega
      _ = (acc + 1) * 10 ^ (rest.length + 1) := by ring
      _ = (acc + 1) * 10 ^ (c :: rest).length := by simp

theorem digitsToNat_lt (cs : List Char) (h : cs.all Char.isDigit) :
    digitsToNat cs < 10 ^ cs.length := by
  simpa [digitsToNat] using digitsToNat_lt_aux cs 0 h

/-! ### Claim C1: decoder values and range checks -/

/-- **C1.** The time-code decoder maps `"00:00.088"` to 88, `"00:45:12.2"`
to 2712200, `"00:00:10.254"` to 10254, `"00:01:10"` to 70000, `"10.24"` to
10240 and `"15.5s"` to 15500; a parsed minutes component `≥ 60` is an
`InvalidTime` error, a parsed seconds component `≥ 60` is an `InvalidTime`
error whenever the input has more than one colon-separated component, and
any negative input (leading `'-'`) is an `InvalidTime` error. -/
theorem time_decoder_values_and_ranges :
    parse_ttml_time_to_ms "00:00.088" = some 88 ∧
    parse_ttml_time_to_ms "00:45:12.2" = some 2712200 ∧
    parse_ttml_time_to_ms "00:00:10.254" = some 10254 ∧
    parse_ttml_time_to_ms "00:01:10" = some 70000 ∧
    parse_ttml_time_to_ms "10.24" = some 10240 ∧
    parse_ttml_time_to_ms "15.5s" = some 15500 ∧
    (∀ (s : String) (a b : List Char) (m : Nat),
      ¬ s.data.getLast? = some 's' →
      splitOnChar ':' s.data = [a, b] →
      rustParseU64 a = some m → 60 ≤ m →
      parse_ttml_time_to_ms s = none) ∧
    (∀ (s : String) (a b c : List Char) (m : Nat),
      ¬ s.data.getLast? = some 's' →
      splitOnChar ':' s.data = [a, b, c] →
      rustParseU64 b = some m → 60 ≤ m →
      parse_ttml_time_to_ms s = none) ∧
    (∀ (s : String) (a b : List Char) (v ms : Nat),
      ¬ s.data.getLast? = some 's' →
      splitOnChar ':' s.data = [a, b] →
      parseSecondsField b = some (v, ms) → 60 ≤ v →
      parse_ttml_time_to_ms s = none) ∧
    (∀ (s : String) (a b c : List Char) (v ms : Nat),
      ¬ s.data.getLast? = some 's' →
      splitOnChar ':' s.data = [a, b, c] →
      parseSecondsField c = some (v, ms) → 60 ≤ v →
      parse_ttml_time_to_ms s = none) ∧
    (∀ cs : List Char, parse_ttml_time_to_ms (String.mk ('-' :: cs)) = none) := by
  refine ⟨by decide, by decide, by decide, by decide, by decide, by decide,
    ?_, ?_, ?_, ?_, ?_⟩
  · intro s a b m hs hsp hm h60
    unfold parse_ttml_time_to_ms parseTimeCore
    rw [if_neg hs, hsp]
    cases hsec : parseSecondsField b with
    | none => simp [hm, hsec]
    | some p =>
      simp [hm, hsec, timeRangeCheck, h60]
  · intro s a b c m hs hsp hm h60
    unfold parse_ttml_time_to_ms parseTimeCore
    rw [if_neg hs, hsp]
    cases ha : rustParseU64 a with
    | none => simp [ha]
    | some hv =>
      cases hsec : parseSecondsField c with
      | none => simp [ha, hm, hsec]
      | some p => simp [ha, hm, hsec, timeRangeCheck, h60]
  · intro s a b v ms hs hsp hsec h60
    unfold parse_ttml_time_to_ms parseTimeCore
    rw [if_neg hs, hsp]
    cases hm : rustParseU64 a with
    | none => simp [hm]
    | some mv =>
      simp only [hm, hsec, Option.bind_eq_bind, Option.some_bind, timeRangeCheck]
      split
      · rfl
      · rw [if_pos ⟨by norm_num, h60⟩]
  · intro s a b c v ms hs hsp hsec h60
    unfold parse_ttml_time_to_ms parseTimeCore
    rw [if_neg hs, hsp]
    cases ha : rustParseU64 a with
    | none => simp [ha]
    | some av =>
      cases hb : rustParseU64 b with
      | none => simp [ha, hb]
      | some bv =>
        simp only [ha, hb, hsec, Option.bind_eq_bind, Option.some_bind,
          timeRangeCheck]
        split
        · rfl
        · rw [if_pos ⟨by norm_num, h60⟩]
  · intro cs
    unfold parse_ttml_time_to_ms parseTimeCore
    by_cases hl : (String.mk ('-' :: cs)).data.getLast? = some 's'
    · rw [if_pos hl]
      have hne : cs ≠ [] := by
        intro h
        subst h
        simp at hl
      have hdl : (String.mk ('-' :: cs)).data.dropLast = '-' :: cs.dropLast := by
        show ('-' :: cs).dropLast = '-' :: cs.dropLast
        cases cs with
        | nil => exact absurd rfl hne
        | cons x xs => rfl
      rw [hdl]
      unfold parseSecondsSuffixForm
      split
      · rfl
      · cases hp : parseF64Decimal ('-' :: cs.dropLast) with
        | none => rfl
        | some p =>
          have := parseF64Decimal_neg_sign _ _ hp
          simp [this]
    · rw [if_neg hl]
      obtain ⟨h0, t0, heq, heq2⟩ := splitOnChar_cons_of_ne ':' '-' cs (by decide)
      show (match splitOnChar ':' ('-' :: cs) with
        | [secField] => (parseSecondsField secField).bind
            (fun p => timeRangeCheck 1 0 0 p.1 p.2)
        | [minField, secField] => (rustParseU64 minField).bind (fun minutes =>
            (parseSecondsField secField).bind
              (fun p => timeRangeCheck 2 0 minutes p.1 p.2))
        | [hourField, minField, secField] =>
            (rustParseU64 hourField).bind (fun hours =>
              (rustParseU64 minField).bind (fun minutes =>
                (parseSecondsField secField).bind
                  (fun p => timeRangeCheck 3 hours minutes p.1 p.2)))
        | _ => none) = none
      rw [heq2]
      cases t0 with
      | nil => simp [parseSecondsField_neg]
      | cons x1 t1 =>
        cases t1 with
        | nil => simp [rustParseU64_neg]
        | cons x2 t2 =>
          cases t2 with
          | nil => simp [rustParseU64_neg]
          | cons x3 t3 => rfl

/-- Witness for C1: the universally quantified range-check conjuncts applied
at the concrete inputs `"99:10"`, `"0:99:10"`, `"0:75"`, `"0:0:75"` and
`"-5"`. -/
theorem time_decoder_values_and_ranges_witness :
    parse_ttml_time_to_ms "99:10" = none ∧
    parse_ttml_time_to_ms "0:99:10" = none ∧
    parse_ttml_time_to_ms "0:75" = none ∧
    parse_ttml_time_to_ms "0:0:75" = none ∧
    parse_ttml_time_to_ms "-5" = none := by
  obtain ⟨-, -, -, -, -, -, hmin2, hmin3, hsec2, hsec3, hneg⟩ :=
    time_decoder_values_and_ranges
  refine ⟨?_, ?_, ?_, ?_, ?_⟩
  · exact hmin2 "99:10" ['9', '9'] ['1', '0'] 99 (by decide) (by decide)
      (by decide) (by decide)
  · exact hmin3 "0:99:10" ['0'] ['9', '9'] ['1', '0'] 99 (by decide) (by decide)
      (by decide) (by decide)
  · exact hsec2 "0:75" ['0'] ['7', '5'] 75 0 (by decide) (by decide)
      (by decide) (by decide)
  · exact hsec3 "0:0:75" ['0'] ['0'] ['7', '5'] 75 0 (by decide) (by decide)
      (by decide) (by decide)
  · exact hneg ['5']

/-! ### Claim C8: fractional parts of more than 3 digits -/

/-- A fractional field longer than 3 digits is rejected by `parse_ms_part`. -/
theorem parse_ms_part_long (cs : List Char) (h : 3 < cs.length) :
    parse_ms_part cs = none := by
  unfold parse_ms_part
  rw [if_pos (Or.inr (Or.inl h))]

theorem parseSecondsField_long (f intPart msPart : List Char)
    (hsp : splitOnChar '.' f = [intPart, msPart]) (h : 3 < msPart.length) :
    parseSecondsField f = none := by
  unfold parseSecondsField
  rw [hsp]
  by_cases hi : intPart = []
  · simp [hi]
  · cases hu : rustParseU64 intPart <;>
      simp [hi, hu, parse_ms_part_long _ h]

/-- **C8 counterexample.** The claim states that in every accepted grammar,
including the `<seconds>s` form, a fractional part of more than 3 digits is
an `InvalidTime` error.  But `"1.2345s"` (4 fractional digits) is accepted:
the `s` branch parses the whole literal as a float and never inspects the
fraction length. -/
theorem long_fraction_accepted_in_s_form :
    (parse_ttml_time_to_ms "1.2345s").isSome = true := by decide

/-- **C8 (amended).** In the colon-based grammars (`SS[.f]`, `MM:SS[.f]`,
`HH:MM:SS[.f]`) a fractional part of more than 3 digits is an `InvalidTime`
error, but in the `<seconds>[.fraction]s` form a fraction of any length of
digits is accepted (and rounded to the nearest millisecond). -/
theorem long_fraction_colon_forms_only :
    (∀ (s : String) (f intPart msPart : List Char),
      ¬ s.data.getLast? = some 's' →
      splitOnChar ':' s.data = [f] →
      splitOnChar '.' f = [intPart, msPart] → 3 < msPart.length →
      parse_ttml_time_to_ms s = none) ∧
    (∀ (s : String) (a f intPart msPart : List Char),
      ¬ s.data.getLast? = some 's' →
      splitOnChar ':' s.data = [a, f] →
      splitOnChar '.' f = [intPart, msPart] → 3 < msPart.length →
      parse_ttml_time_to_ms s = none) ∧
    (∀ (s : String) (a b f intPart msPart : List Char),
      ¬ s.data.getLast? = some 's' →
      splitOnChar ':' s.data = [a, b, f] →
      splitOnChar '.' f = [intPart, msPart] → 3 < msPart.length →
      parse_ttml_time_to_ms s = none) ∧
    (∀ ds : List Char, ds ≠ [] → ds.all Char.isDigit →
      (parse_ttml_time_to_ms
        (String.mk ('1' :: '.' :: (ds ++ ['s'])))).isSome = true) := by
  refine ⟨?_, ?_, ?_, ?_⟩
  · intro s f intPart msPart hs hsp hdot hlen
    unfold parse_ttml_time_to_ms parseTimeCore
    rw [if_neg hs, hsp]
    simp [parseSecondsField_long f intPart msPart hdot hlen]
  · intro s a f intPart msPart hs hsp hdot hlen
    unfold parse_ttml_time_to_ms parseTimeCore
    rw [if_neg hs, hsp]
    cases ha : rustParseU64 a <;>
      simp [ha, parseSecondsField_long f intPart msPart hdot hlen]
  · intro s a b f intPart msPart hs hsp hdot hlen
    unfold parse_ttml_time_to_ms parseTimeCore
    rw [if_neg hs, hsp]
    cases ha : rustParseU64 a <;>
      cases hb : rustParseU64 b <;>
        simp [ha, hb, parseSecondsField_long f intPart msPart hdot hlen]
  · intro ds hne hdig
    unfold parse_ttml_time_to_ms parseTimeCore
    have hshape : ('1' :: '.' :: (ds ++ ['s'])) = ('1' :: '.' :: ds) ++ ['s'] := by
      simp
    have hlast : (String.mk ('1' :: '.' :: (ds ++ ['s']))).data.getLast?
        = some 's' := by
      show ('1' :: '.' :: (ds ++ ['s'])).getLast? = some 's'
      rw [hshape, List.getLast?_concat]
    rw [if_pos hlast]
    have hdl : (String.mk ('1' :: '.' :: (ds ++ ['s']))).data.dropLast
        = '1' :: '.' :: ds := by
      show ('1' :: '.' :: (ds ++ ['s'])).dropLast = '1' :: '.' :: ds
      rw [hshape, List.dropLast_concat]
    rw [hdl]
    unfold parseSecondsSuffixForm
    have hgl : ('1' :: '.' :: ds).getLast? = ds.getLast? := by
      cases ds with
      | nil => exact absurd rfl hne
      | cons d dt => simp
    have hglne : ¬ ('1' :: '.' :: ds).getLast? = some '.' := by
      rw [hgl]
      cases hg : ds.getLast? with
      | none => simp
      | some d =>
        have hmem : d ∈ ds := List.mem_of_mem_getLast? hg
        have : d.isDigit := by
          have := List.all_eq_true.mp hdig d hmem
          simpa using this
        have hdd : ¬ d = '.' := by
          intro hcontr
          rw [hcontr] at this
          exact absurd this (by decide)
        simp [hdd]
    have hcond : ¬(('1' :: '.' :: ds) = [] ∨
        ('1' :: '.' :: ds).head? = some '.' ∨
        ('1' :: '.' :: ds).getLast? = some '.') := by
      push_neg
      exact ⟨by simp, by simp, hglne⟩
    rw [if_neg hcond]
    have hsp1 : splitOnChar '.' ds = [ds] := by
      apply splitOnChar_eq_single
      intro c hc hcd
      have hdg : Char.isDigit c = true := by
        have h0 := List.all_eq_true.mp hdig c hc
        simpa using h0
      rw [hcd] at hdg
      exact absurd hdg (by decide)
    have hsp2 : splitOnChar '.' ('.' :: ds) = [] :: [ds] := by
      simp [splitOnChar, hsp1]
    have hsp3 : splitOnChar '.' ('1' :: '.' :: ds) = ['1'] :: [ds] := by
      obtain ⟨h0, t0, heq, heq2⟩ := splitOnChar_cons_of_ne '.' '1' ('.' :: ds)
        (by decide)
      rw [hsp2] at heq
      injection heq with h01 h02
      subst h01
      subst h02
      exact heq2
    unfold parseF64Decimal
    rw [show f64Sign ('1' :: '.' :: ds) = (false, '1' :: '.' :: ds) from rfl]
    dsimp only
    rw [hsp3]
    dsimp only
    rw [if_pos ⟨Or.inl (by simp), by decide, hdig⟩]
    dsimp only
    have hfv : digitsToNat ds < 10 ^ ds.length := digitsToNat_lt ds hdig
    have hnum : (digitsToNat ['1'] * 10 ^ ds.length + digitsToNat ds) * 1000
        ≤ (2 ^ 64 - 1) * 10 ^ ds.length := by
      have h1 : digitsToNat ['1'] = 1 := by decide
      rw [h1]
      have hmid : (10 ^ ds.length + digitsToNat ds) * 1000
          ≤ 2000 * 10 ^ ds.length := by
        nlinarith [hfv]
      calc (1 * 10 ^ ds.length + digitsToNat ds) * 1000
          = (10 ^ ds.length + digitsToNat ds) * 1000 := by ring
        _ ≤ 2000 * 10 ^ ds.length := hmid
        _ ≤ (2 ^ 64 - 1) * 10 ^ ds.length := by
            apply Nat.mul_le_mul_right
            norm_num
    rw [if_neg (by decide : ¬(false = true))]
    rw [if_neg (Nat.not_lt.mpr hnum)]
    rfl

/-- Witness for C8 (amended): the colon-form conjuncts applied at
`"10.2456"`, `"0:10.2456"` and `"0:0:10.2456"`, and the `s`-form conjunct
applied at the digit list `['2','3','4','5']` (i.e. the input
`"1.2345s"`). -/
theorem long_fraction_colon_forms_only_witness :
    parse_ttml_time_to_ms "10.2456" = none ∧
    parse_ttml_time_to_ms "0:10.2456" = none ∧
    parse_ttml_time_to_ms "0:0:10.2456" = none ∧
    (parse_ttml_time_to_ms
      (String.mk ('1' :: '.' :: (['2', '3', '4', '5'] ++ ['s'])))).isSome
      = true := by
  obtain ⟨h1, h2, h3, h4⟩ := long_fraction_colon_forms_only
  refine ⟨?_, ?_, ?_, ?_⟩
  · exact h1 "10.2456" "10.2456".data ['1', '0'] ['2', '4', '5', '6']
      (by decide) (by decide) (by decide) (by decide)
  · exact h2 "0:10.2456" ['0'] "10.2456".data ['1', '0'] ['2', '4', '5', '6']
      (by decide) (by decide) (by decide) (by decide)
  · exact h3 "0:0:10.2456" ['0'] ['0'] "10.2456".data ['1', '0']
      ['2', '4', '5', '6'] (by decide) (by decide) (by decide) (by decide)
  · exact h4 ['2', '3', '4', '5'] (by decide) (by decide)

/-! ## The lyric data model (types.rs) -/

/-- Model of `LyricSyllable` (types.rs:91). -/
structure LyricSyllable where
  text : String
  start_ms : Nat
  end_ms : Nat
  duration_ms : Option Nat
  ends_with_space : Bool
deriving DecidableEq

/-- Model of `TranslationEntry` (types.rs:109). -/
structure TranslationEntry where
  text : String
  lang : Option String
deriving DecidableEq

/-- Model of `RomanizationEntry` (types.rs:119). -/
structure RomanizationEntry where
  text : String
  lang : Option String
  scheme : Option String
deriving DecidableEq

/-- Model of `BackgroundSection` (types.rs:132). -/
structure BackgroundSection where
  start_ms : Nat
  end_ms : Nat
  syllables : List LyricSyllable
  translations : List TranslationEntry
  romanizations : List RomanizationEntry
deriving DecidableEq

/-- Model of `LyricLine` (types.rs:147). -/
structure LyricLine where
  start_ms : Nat
  end_ms : Nat
  line_text : Option String
  main_syllables : List LyricSyllable
  translations : List TranslationEntry
  romanizations : List RomanizationEntry
  agent : Option String
  background_section : Option BackgroundSection
  song_part : Option String
  itunes_key : Option String
deriving DecidableEq

/-- Concatenation of the texts of a syllable list, as done by
`get_line_text` (agent_recognizer.rs:71) and by the conversion and
stripper passes. -/
def concatSyllableTexts (syls : List LyricSyllable) : String :=
  ⟨(syls.map (fun s => s.text.data)).flatten⟩

/-! ## Whitespace helpers (`str::trim`, `normalize_text_whitespace`) -/

def trimLeftChars (cs : List Char) : List Char := cs.dropWhile rustIsWhitespace

def trimRightChars (cs : List Char) : List Char :=
  (cs.reverse.dropWhile rustIsWhitespace).reverse

/-- Model of Rust's `str::trim`. -/
def trimChars (cs : List Char) : List Char := trimRightChars (trimLeftChars cs)

/-- The words of a character list, splitting on Unicode whitespace and
discarding empty fragments (Rust's `str::split_whitespace`). -/
def splitWhitespaceAux (cs : List Char) (acc : List Char) :
    List (List Char) :=
  match cs with
  | [] => if acc = [] then [] else [acc.reverse]
  | c :: rest =>
    if rustIsWhitespace c then
      if acc = [] then splitWhitespaceAux rest []
      else acc.reverse :: splitWhitespaceAux rest []
    else splitWhitespaceAux rest (c :: acc)

/-- Model of `normalize_text_whitespace` (ttml_parser.rs:1589): trim, split
on whitespace, and re-join the fragments with single spaces. -/
def normalize_text_whitespace (s : String) : String :=
  ⟨List.intercalate [' '] (splitWhitespaceAux s.data [])⟩

/-! ## Model of `finalize_p_element` (ttml_parser.rs:1221-1320) and the
`</p>` iTunes-translation backfill (ttml_parser.rs:542-560) -/

/-- Model of `CurrentPElementData` (ttml_parser.rs:142). -/
structure CurrentPElementData where
  start_ms : Nat
  end_ms : Nat
  agent : Option String
  song_part : Option String
  itunes_key : Option String
  line_text_accumulator : String
  syllables_accumulator : List LyricSyllable
  translations_accumulator : List TranslationEntry
  romanizations_accumulator : List RomanizationEntry
  background_section_accumulator : Option BackgroundSection
deriving DecidableEq

/-- The `</p>` backfill of `handle_p_event` (ttml_parser.rs:542-560): when
the line carries an `itunes:key` with an entry in the metadata translation
table, the entry is appended unless some already-collected translation has
exactly the same text.  The `HashMap` lookup is modelled by the function
`translation_map`. -/
def backfill_itunes_translation (itunes_key : Option String)
    (translation_map : String → Option (String × Option String))
    (translations : List TranslationEntry) : List TranslationEntry :=
  match itunes_key with
  | none => translations
  | some key =>
    match translation_map key with
    | none => translations
    | some (text, lang) =>
      if translations.all (fun t => t.text != text) then
        translations ++ [⟨text, lang⟩]
      else translations

/-- The per-syllable text reassembly used by `finalize_p_for_line_mode`
and by the `line_text` rebuild of the word mode: each syllable contributes
its text plus a space when its `ends_with_space` flag is set. -/
def assembleSyllableText (syls : List LyricSyllable) : String :=
  ⟨(syls.map (fun s =>
      s.text.data ++ if s.ends_with_space then [' '] else [])).flatten⟩

/-- Model of `finalize_p_for_line_mode` (ttml_parser.rs:1323): the line text
comes from the accumulator, or is reassembled from the collected syllables
when the accumulator is whitespace-only, and is whitespace-normalized.
Warning emission is not modelled (it does not affect the line data). -/
def finalize_p_for_line_mode (final_line : LyricLine)
    (line_text_accumulator : String)
    (syllables_accumulator : List LyricSyllable) : LyricLine :=
  let content :=
    if trimChars line_text_accumulator.data = [] ∧ syllables_accumulator ≠ []
    then assembleSyllableText syllables_accumulator
    else line_text_accumulator
  { final_line with line_text := some (normalize_text_whitespace content) }

/-- Model of `finalize_p_for_word_mode` (ttml_parser.rs:1364): the collected
syllables become the line's syllables; non-empty unwrapped paragraph text
becomes a single whole-line syllable only when there are no syllables;
an absent `line_text` is reassembled from the syllables and right-trimmed. -/
def finalize_p_for_word_mode (final_line : LyricLine)
    (syllables_accumulator : List LyricSyllable)
    (line_text_accumulator : String) : LyricLine :=
  let l1 := { final_line with main_syllables := syllables_accumulator }
  let unhandled := normalize_text_whitespace line_text_accumulator
  let l2 :=
    if unhandled ≠ "" ∧ l1.main_syllables = [] then
      { l1 with main_syllables := [{
          text := unhandled,
          start_ms := l1.start_ms,
          end_ms := max l1.end_ms l1.start_ms,
          duration_ms := some (l1.end_ms - l1.start_ms),
          ends_with_space := false }] }
    else l1
  if l2.line_text = none ∧ l2.main_syllables ≠ [] then
    { l2 with line_text :=
        (some ⟨trimRightChars (assembleSyllableText l2.main_syllables).data⟩) }
  else l2

/-- The background-section attachment step of `finalize_p_element`
(ttml_parser.rs:1270-1282): the accumulator becomes the line's background
section when it holds any syllable, translation or romanization. -/
def attach_background (line : LyricLine)
    (bg : Option BackgroundSection) : LyricLine :=
  match bg with
  | none => line
  | some b =>
    if b.syllables ≠ [] ∨ b.translations ≠ [] ∨ b.romanizations ≠ [] then
      { line with background_section := some b }
    else line

/-- Clears the `ends_with_space` flag of the last syllable of a list. -/
def clear_last_flag : List LyricSyllable → List LyricSyllable
  | [] => []
  | [s] => [{ s with ends_with_space := false }]
  | s :: rest => s :: clear_last_flag rest

/-- The trailing-space clearing step of `finalize_p_element`
(ttml_parser.rs:1284-1291): the last main syllable and the last background
syllable lose their trailing-space flag. -/
def clear_trailing_space_step (line : LyricLine) : LyricLine :=
  let l1 := { line with main_syllables := clear_last_flag line.main_syllables }
  match l1.background_section with
  | none => l1
  | some bg =>
    { l1 with background_section :=
        (some { bg with syllables := clear_last_flag bg.syllables }) }

/-- The synthetic whole-line-syllable step of `finalize_p_element`
(ttml_parser.rs:1293-1305): when the line has no main syllable, a non-empty
flat text and a strictly positive duration, a single syllable spanning the
whole line is created. -/
def synthetic_whole_line_syllable_step (line : LyricLine) : LyricLine :=
  match line.line_text with
  | some t =>
    if line.main_syllables = [] ∧ t ≠ "" ∧ line.start_ms < line.end_ms then
      { line with main_syllables := [{
          text := t,
          start_ms := line.start_ms,
          end_ms := line.end_ms,
          duration_ms := some (line.end_ms - line.start_ms),
          ends_with_space := false }] }
    else line
  | none => line

/-- The final empty-line drop check of `finalize_p_element`
(ttml_parser.rs:1309-1317). -/
def line_is_droppable (line : LyricLine) : Prop :=
  line.main_syllables = [] ∧
  (line.line_text = none ∨ line.line_text = some "") ∧
  line.translations = [] ∧ line.romanizations = [] ∧
  line.background_section = none ∧ line.end_ms ≤ line.start_ms

instance (line : LyricLine) : Decidable (line_is_droppable line) := by
  unfold line_is_droppable
  infer_instance

/-- Model of `finalize_p_element` (ttml_parser.rs:1221): assembles the
collected paragraph data into a `LyricLine` and appends it to the output
unless the line is completely empty.  The `agent` field defaults to
`"v1"` when the paragraph carried no agent attribute. -/
def finalize_p_element (p : CurrentPElementData)
    (is_line_timing_mode : Bool) (lines : List LyricLine) : List LyricLine :=
  let line0 : LyricLine := {
    start_ms := p.start_ms,
    end_ms := p.end_ms,
    line_text := none,
    main_syllables := [],
    translations := p.translations_accumulator,
    romanizations := p.romanizations_accumulator,
    agent := p.agent.or (some "v1"),
    background_section := none,
    song_part := p.song_part,
    itunes_key := p.itunes_key }
  let line1 :=
    if is_line_timing_mode then
      finalize_p_for_line_mode line0 p.line_text_accumulator
        p.syllables_accumulator
    else
      finalize_p_for_word_mode line0 p.syllables_accumulator
        p.line_text_accumulator
  let line2 := attach_background line1 p.background_section_accumulator
  let line3 := clear_trailing_space_step line2
  let line4 := synthetic_whole_line_syllable_step line3
  if line_is_droppable line4 then lines else lines ++ [line4]

/-! ### Claim C2: the iTunes translation backfill at paragraph close -/

/-- **C2 counterexample.** The claim states that the table entry is not
appended when an inline translation for the same language already exists.
But the code deduplicates by *text*, not language: with an inline English
translation `"Hello"` and a table entry `("Bonjour", en)` for the line's
key, the entry is appended anyway. -/
theorem backfill_ignores_language_cex :
    (∃ t ∈ [({ text := "Hello", lang := some "en" } : TranslationEntry)],
        t.lang = some "en") ∧
    backfill_itunes_translation (some "L1")
      (fun k => if k = "L1" then some ("Bonjour", some "en") else none)
      [{ text := "Hello", lang := some "en" }] =
      [{ text := "Hello", lang := some "en" },
       { text := "Bonjour", lang := some "en" }] := by
  refine ⟨⟨{ text := "Hello", lang := some "en" }, by simp, rfl⟩, by decide⟩

/-- **C2 (amended).** At paragraph close, when the line carries a key with
an entry in the iTunesMetadata translation table, the entry is appended
unless some inline translation has exactly the same *text* (the language is
not compared); when an inline translation with the same text exists the
inline list is left unchanged; and a line whose key has no table entry (or
that has no key) gets no backfilled translation. -/
theorem backfill_dedup_is_by_text :
    (∀ (key : String) (tmap : String → Option (String × Option String))
        (ts : List TranslationEntry) (text : String) (lang : Option String),
      tmap key = some (text, lang) → (∀ t ∈ ts, ¬ t.text = text) →
      backfill_itunes_translation (some key) tmap ts = ts ++ [⟨text, lang⟩]) ∧
    (∀ (key : String) (tmap : String → Option (String × Option String))
        (ts : List TranslationEntry) (text : String) (lang : Option String),
      tmap key = some (text, lang) → (∃ t ∈ ts, t.text = text) →
      backfill_itunes_translation (some key) tmap ts = ts) ∧
    (∀ (tmap : String → Option (String × Option String))
        (ts : List TranslationEntry),
      backfill_itunes_translation none tmap ts = ts) ∧
    (∀ (key : String) (tmap : String → Option (String × Option String))
        (ts : List TranslationEntry),
      tmap key = none → backfill_itunes_translation (some key) tmap ts = ts) := by
  refine ⟨?_, ?_, ?_, ?_⟩
  · intro key tmap ts text lang hmap hno
    unfold backfill_itunes_translation
    dsimp only
    rw [hmap]
    dsimp only
    rw [if_pos]
    simp only [List.all_eq_true, bne_iff_ne, ne_eq]
    exact fun t ht => hno t ht
  · intro key tmap ts text lang hmap hyes
    unfold backfill_itunes_translation
    dsimp only
    rw [hmap]
    dsimp only
    rw [if_neg]
    simp only [List.all_eq_true, bne_iff_ne, ne_eq, not_forall]
    obtain ⟨t, ht, heq⟩ := hyes
    exact ⟨t, ht, by simpa using heq⟩
  · intro tmap ts
    rfl
  · intro key tmap ts hmap
    unfold backfill_itunes_translation
    dsimp only
    rw [hmap]

/-- Witness for C2 (amended): the three hypothesis-bearing conjuncts applied
at concrete tables and translation lists. -/
theorem backfill_dedup_is_by_text_witness :
    backfill_itunes_translation (some "L1")
      (fun k => if k = "L1" then some ("Hi", some "en") else none)
      [{ text := "Salut", lang := some "fr" }] =
      [{ text := "Salut", lang := some "fr" }, { text := "Hi", lang := some "en" }] ∧
    backfill_itunes_translation (some "L1")
      (fun k => if k = "L1" then some ("Salut", some "en") else none)
      [{ text := "Salut", lang := some "fr" }] =
      [{ text := "Salut", lang := some "fr" }] ∧
    backfill_itunes_translation (some "L2")
      (fun k => if k = "L1" then some ("Hi", some "en") else none)
      [{ text := "Salut", lang := some "fr" }] =
      [{ text := "Salut", lang := some "fr" }] := by
  obtain ⟨h1, h2, -, h4⟩ := backfill_dedup_is_by_text
  refine ⟨?_, ?_, ?_⟩
  · exact h1 "L1" _ _ "Hi" (some "en") (by decide) (by decide)
  · exact h2 "L1" _ _ "Salut" (some "en") (by decide)
      ⟨{ text := "Salut", lang := some "fr" }, by decide, rfl⟩
  · exact h4 "L2" _ _ (by decide)

/-! ### Claims C6 and C7: agent default and synthetic whole-line syllable -/

theorem finalize_p_for_line_mode_agent (line : LyricLine) (a : String)
    (s' : List LyricSyllable) :
    (finalize_p_for_line_mode line a s').agent = line.agent := rfl

theorem finalize_p_for_word_mode_agent (line : LyricLine)
    (s' : List LyricSyllable) (a : String) :
    (finalize_p_for_word_mode line s' a).agent = line.agent := by
  unfold finalize_p_for_word_mode
  dsimp only
  split
  · split <;> rfl
  · split <;> rfl

theorem attach_background_agent (line : LyricLine)
    (bg : Option BackgroundSection) :
    (attach_background line bg).agent = line.agent := by
  cases bg with
  | none => rfl
  | some b =>
    unfold attach_background
    dsimp only
    split <;> rfl

theorem clear_trailing_space_step_agent (line : LyricLine) :
    (clear_trailing_space_step line).agent = line.agent := by
  unfold clear_trailing_space_step
  dsimp only
  split <;> rfl

theorem synthetic_whole_line_syllable_step_agent (line : LyricLine) :
    (synthetic_whole_line_syllable_step line).agent = line.agent := by
  unfold synthetic_whole_line_syllable_step
  split
  · split <;> rfl
  · rfl

/-- **C6 counterexample.** The claim states that a paragraph without an
agent attribute produces a line with no singer identifier, but
`finalize_p_element` defaults the agent to `"v1"`. -/
theorem finalize_agent_defaults_v1_cex :
    (finalize_p_element
      { start_ms := 0, end_ms := 1000, agent := none, song_part := none,
        itunes_key := none, line_text_accumulator := "hello",
        syllables_accumulator := [], translations_accumulator := [],
        romanizations_accumulator := [],
        background_section_accumulator := none }
      true []).map LyricLine.agent = [some "v1"] := by decide

/-- **C6 (amended).** Every line produced by paragraph finalization carries
the paragraph's own agent attribute when present, and the default agent
`"v1"` when the paragraph has no agent attribute — the singer identifier is
never absent. -/
theorem finalize_agent_own_or_v1 (p : CurrentPElementData) (mode : Bool)
    (l : LyricLine) (h : l ∈ finalize_p_element p mode []) :
    l.agent = p.agent.or (some "v1") := by
  unfold finalize_p_element at h
  dsimp only at h
  split at h <;> split at h
  all_goals
    first
      | (simp only [List.nil_append, List.mem_singleton] at h
         subst h
         rw [synthetic_whole_line_syllable_step_agent,
           clear_trailing_space_step_agent, attach_background_agent]
         first
           | rw [finalize_p_for_line_mode_agent]
           | rw [finalize_p_for_word_mode_agent])
      | exact absurd h (List.not_mem_nil l)

/-- Witness for C6 (amended): applied to the concrete agent-less paragraph
of the counterexample, whose produced line is spelled out explicitly. -/
theorem finalize_agent_own_or_v1_witness :
    ({ start_ms := 0, end_ms := 1000, line_text := some "hello",
       main_syllables := [⟨"hello", 0, 1000, some 1000, false⟩],
       translations := [], romanizations := [], agent := some "v1",
       background_section := none, song_part := none,
       itunes_key := none } : LyricLine).agent =
      Option.or none (some "v1") :=
  finalize_agent_own_or_v1
    { start_ms := 0, end_ms := 1000, agent := none, song_part := none,
      itunes_key := none, line_text_accumulator := "hello",
      syllables_accumulator := [], translations_accumulator := [],
      romanizations_accumulator := [],
      background_section_accumulator := none }
    true _ (by decide)

/-- **C7.** At paragraph finalization, when the line has a non-empty flat
text, no main syllable and a strictly positive duration, exactly one
synthetic syllable spanning the whole line is created, whose text is the
flat text; under any other combination of these conditions the line is left
unchanged. -/
theorem synthetic_syllable_condition (line : LyricLine) :
    (∀ t, line.line_text = some t → line.main_syllables = [] → t ≠ "" →
      line.start_ms < line.end_ms →
      synthetic_whole_line_syllable_step line =
        { line with main_syllables :=
            [⟨t, line.start_ms, line.end_ms,
              some (line.end_ms - line.start_ms), false⟩] }) ∧
    (¬ (line.main_syllables = [] ∧ (∃ t, line.line_text = some t ∧ t ≠ "") ∧
        line.start_ms < line.end_ms) →
      synthetic_whole_line_syllable_step line = line) := by
  constructor
  · intro t ht hm hne hlt
    unfold synthetic_whole_line_syllable_step
    rw [ht]
    dsimp only
    rw [if_pos ⟨hm, hne, hlt⟩]
  · intro hn
    unfold synthetic_whole_line_syllable_step
    cases hx : line.line_text with
    | none => rfl
    | some t =>
      dsimp only
      split
      · rename_i hcond
        exact absurd ⟨hcond.1, ⟨t, hx, hcond.2.1⟩, hcond.2.2⟩ hn
      · rfl

/-- Witness for C7: both implications applied at concrete lines — a
qualifying line (flat text `"la"`, no syllables, duration 0–100) and a
non-qualifying one (zero duration). -/
theorem synthetic_syllable_condition_witness :
    synthetic_whole_line_syllable_step
      { start_ms := 0, end_ms := 100, line_text := some "la",
        main_syllables := [], translations := [], romanizations := [],
        agent := none, background_section := none, song_part := none,
        itunes_key := none } =
      { start_ms := 0, end_ms := 100, line_text := some "la",
        main_syllables := [⟨"la", 0, 100, some 100, false⟩],
        translations := [], romanizations := [], agent := none,
        background_section := none, song_part := none,
        itunes_key := none } ∧
    synthetic_whole_line_syllable_step
      { start_ms := 50, end_ms := 50, line_text := some "la",
        main_syllables := [], translations := [], romanizations := [],
        agent := none, background_section := none, song_part := none,
        itunes_key := none } =
      { start_ms := 50, end_ms := 50, line_text := some "la",
        main_syllables := [], translations := [], romanizations := [],
        agent := none, background_section := none, song_part := none,
        itunes_key := none } := by
  constructor
  · exact (synthetic_syllable_condition _).1 "la" rfl rfl (by decide) (by decide)
  · exact (synthetic_syllable_condition _).2 (by decide)

/-! ## Model of `ChineseConversionProcessor::process`
(chinese_conversion_processor.rs:40-69) -/

/-- Model of `ChineseConversionOptions` (types.rs:427). -/
structure ChineseConversionOptions where
  config_name : Option String
deriving DecidableEq

/-- The per-line body of `ChineseConversionProcessor::process`: syllable
texts are converted first; the flat text is converted when present and
otherwise reconstructed from the already-converted syllables (when any);
translation texts are converted.  The external OpenCC converter for the
selected configuration is abstracted as `conv`. -/
def convertLine (conv : String → String) (line : LyricLine) : LyricLine :=
  let l1 :=
    if line.main_syllables ≠ [] then
      { line with main_syllables :=
          line.main_syllables.map (fun s => { s with text := conv s.text }) }
    else line
  let l2 :=
    match l1.line_text with
    | some t => { l1 with line_text := some (conv t) }
    | none =>
      if l1.main_syllables ≠ [] then
        { l1 with line_text := some (concatSyllableTexts l1.main_syllables) }
      else l1
  { l2 with translations :=
      l2.translations.map (fun t => { t with text := conv t.text }) }

/-- Model of `ChineseConversionProcessor::process`: a no-op when no
non-empty configuration name is selected, and `convertLine` on every line
otherwise. -/
def chinese_conversion_process (conv : String → String)
    (opts : ChineseConversionOptions) (lines : List LyricLine) :
    List LyricLine :=
  match opts.config_name with
  | none => lines
  | some name => if name = "" then lines else lines.map (convertLine conv)

/-- **C9.** With a non-empty configuration selected, the conversion pass
rewrites every syllable text, the flat line text (reconstructing it from
the already-converted syllables when absent and syllables exist), and every
translation text, while the romanization entries of every line are left
completely unchanged. -/
theorem conversion_rewrites_all_but_romanizations
    (conv : String → String) (name : String) (lines : List LyricLine)
    (hname : ¬ name = "") :
    chinese_conversion_process conv ⟨some name⟩ lines =
      lines.map (convertLine conv) ∧
    ∀ line : LyricLine,
      (convertLine conv line).main_syllables =
        line.main_syllables.map (fun s => { s with text := conv s.text }) ∧
      (convertLine conv line).line_text =
        (match line.line_text with
         | some t => some (conv t)
         | none =>
           if line.main_syllables ≠ [] then
             some (concatSyllableTexts
               (line.main_syllables.map (fun s => { s with text := conv s.text })))
           else none) ∧
      (convertLine conv line).translations =
        line.translations.map (fun t => { t with text := conv t.text }) ∧
      (convertLine conv line).romanizations = line.romanizations := by
  constructor
  · unfold chinese_conversion_process
    dsimp only
    rw [if_neg hname]
  · intro line
    unfold convertLine
    by_cases hs : line.main_syllables = []
    · cases hx : line.line_text <;>
        simp [hs, hx]
    · cases hx : line.line_text <;>
        simp [hs, hx, List.map_eq_nil_iff]

/-- Witness for C9: applied with the reversing converter on a one-line
list whose line has a syllable, no flat text, one translation and one
romanization. -/
theorem conversion_rewrites_all_but_romanizations_witness :
    chinese_conversion_process (fun s => ⟨s.data.reverse⟩) ⟨some "s2t"⟩
      [{ start_ms := 0, end_ms := 10, line_text := none,
         main_syllables := [⟨"ab", 0, 10, none, false⟩],
         translations := [⟨"cd", none⟩],
         romanizations := [⟨"ef", none, none⟩],
         agent := none, background_section := none, song_part := none,
         itunes_key := none }] =
      [{ start_ms := 0, end_ms := 10, line_text := some "ba",
         main_syllables := [⟨"ba", 0, 10, none, false⟩],
         translations := [⟨"dc", none⟩],
         romanizations := [⟨"ef", none, none⟩],
         agent := none, background_section := none, song_part := none,
         itunes_key := none }] := by
  rw [(conversion_rewrites_all_but_romanizations
    (fun s => ⟨s.data.reverse⟩) "s2t" _ (by decide)).1]
  decide

/-! ## Model of `strip_descriptive_metadata_lines` (metadata_stripper.rs) -/

/-- Model of `MetadataStripperOptions` (types.rs:395). -/
structure MetadataStripperOptions where
  enabled : Bool
  keywords : Option (List String)
  keyword_case_sensitive : Bool
  enable_regex_stripping : Bool
  regex_patterns : Option (List String)
  regex_case_sensitive : Bool
deriving DecidableEq

/-- The built-in keyword list of `strip_descriptive_metadata_lines`
(metadata_stripper.rs:67-297), used when the options carry no custom
keyword list. -/
def default_keywords : List String := [
  "作曲",
  "作词",
  "编曲",
  "演唱",
  "歌手",
  "歌名",
  "专辑",
  "发行",
  "出品",
  "监制",
  "录音",
  "混音",
  "母带",
  "吉他",
  "贝斯",
  "鼓",
  "键盘",
  "弦乐",
  "和声",
  "版权",
  "制作人",
  "原唱",
  "翻唱",
  "词",
  "曲",
  "发行人",
  "宣推",
  "录音制作",
  "制作发行",
  "音乐制作",
  "录音师",
  "混音工程师",
  "母带工程师",
  "制作统筹",
  "艺术指导",
  "出品团队",
  "发行方",
  "和声编写",
  "封面设计",
  "策划",
  "营销推广",
  "总策划",
  "特别鸣谢",
  "出品人",
  "出品公司",
  "联合出品",
  "词曲提供",
  "制作公司",
  "推广策划",
  "乐器演奏",
  "钢琴/合成器演奏",
  "钢琴演奏",
  "合成器演奏",
  "弦乐编写",
  "弦乐监制",
  "第一小提琴",
  "第二小提琴",
  "中提琴",
  "大提琴",
  "弦乐录音师",
  "弦乐录音室",
  "和声演唱",
  "录/混音",
  "制作助理",
  "和音",
  "乐队统筹",
  "维伴音乐",
  "灯光设计",
  "配唱制作人",
  "文案",
  "设计",
  "策划统筹",
  "企划宣传",
  "企划营销",
  "录音室",
  "混音室",
  "母带后期制作人",
  "母带后期处理工程师",
  "母带后期处理录音室",
  "鸣谢",
  "联合策划",
  "OP",
  "SP",
  "Lyrics by",
  "Composed by",
  "Produced by",
  "Published by",
  "Vocals by",
  "Background Vocals by",
  "Additional Vocal by",
  "Mixing Engineer",
  "Mastered by",
  "Executive Producer",
  "Vocal Engineer",
  "Vocals Produced by",
  "Recorded at",
  "Repertoire Owner",
  "Co-Producer",
  "Mastering Engineer",
  "Written by",
  "Lyrics",
  "Composer",
  "Arranged By",
  "Record Producer",
  "Guitar",
  "Music Production",
  "Recording Engineer",
  "Backing Vocal",
  "Art Director",
  "Chief Producer",
  "Production Team",
  "Publisher",
  "Lyricist",
  "Arranger",
  "Producer",
  "Backing Vocals",
  "Backing Vocals Design",
  "Cover Design",
  "Planner",
  "Marketing Promotion",
  "Chref Planner",
  "Acknowledgement",
  "Production Company",
  "Jointly Produced by",
  "Co-production",
  "Presenter",
  "Presented by",
  "Co-produced by",
  "Lyrics and Composition Provided by",
  "Music and Lyrics Provided by",
  "Lyrics & Composition Provided by",
  "Words and Music by",
  "Distribution",
  "Release",
  "Distributed by",
  "Released by",
  "Produce Company",
  "Promotion Planning",
  "Marketing Strategy",
  "Promotion Strategy",
  "Strings",
  "First Violin",
  "Second Violin",
  "Viola",
  "Cello",
  "Vocal Producer",
  "Supervised production",
  "Copywriting",
  "Design",
  "Planner and coordinator",
  "Propaganda",
  "Arrangement",
  "Guitars",
  "Bass",
  "Drums",
  "Backing Vocal Arrangement",
  "Strings Arrangement",
  "Recording Studio",
  "OP/发行",
  "混音/母带工程师",
  "OP/SP",
  "词Lyrics",
  "曲Composer",
  "编曲Arranged By",
  "制作人Record Producer",
  "吉他Guitar",
  "音乐制作Music Production",
  "录音师Recording Engineer",
  "混音工程师Mixing Engineer",
  "母带工程师Mastering Engineer",
  "和声Backing Vocal",
  "制作统筹Executive Producer",
  "艺术指导Art Director",
  "监制Chief Producer",
  "出品团队Production Team",
  "发行方Publisher",
  "词Lyricist",
  "编曲Arranger",
  "制作人Producer",
  "和声Backing Vocals",
  "和声编写Backing Vocals Design",
  "混音Mixing Engineer",
  "封面设计Cover Design",
  "策划Planner",
  "营销推广Marketing Promotion",
  "总策划Chref Planner",
  "特别鸣谢Acknowledgement",
  "出品人Chief Producer",
  "出品公司Production Company",
  "联合出品Co-produced by",
  "联合出品Jointly Produced by",
  "联合出品Co-production",
  "出品方Presenter",
  "出品方Presented by",
  "词曲提供Lyrics and Composition Provided by",
  "词曲提供Music and Lyrics Provided by",
  "词曲提供Lyrics & Composition Provided by",
  "词曲提供Words and Music by",
  "发行Distribution",
  "发行Release",
  "发行Distributed by",
  "发行Released by",
  "制作公司Produce Company",
  "推广策划Promotion Planning",
  "推广策划Marketing Strategy",
  "推广策划Promotion Strategy",
  "弦乐 Strings",
  "第一小提琴 First Violin",
  "第二小提琴 Second Violin",
  "中提琴 Viola",
  "大提琴 Cello",
  "配唱制作人Vocal Producer",
  "监制Supervised production",
  "文案Copywriting",
  "设计Design",
  "策划统筹Planner and coordinator",
  "企划宣传Propaganda",
  "编曲Arrangement",
  "吉他Guitars",
  "贝斯Bass",
  "鼓Drums",
  "和声编写Backing Vocal Arrangement",
  "弦乐编写Strings Arrangement",
  "录音室Recording Studio",
  "混音室Mixing Studio",
  "母带后期制作人Mastering Producer",
  "母带后期处理工程师Mastering Engineer",
  "母带后期处理录音室Mastering Studio"]

/-- The built-in regex pattern list of `strip_descriptive_metadata_lines`
(metadata_stripper.rs:298-308), used when the options carry no custom
pattern list.  The patterns are data here: matching is delegated to the
abstract regex oracle. -/
def default_regex_patterns : List String := [
  "^.*(著作权|版权|未经|未取得|未获).*许可.*不得.*(使用|翻唱|翻录).*$",
  "(?:【.*?未经.*?】|\\(.*?未经.*?\\)|「.*?未经.*?」|（.*?未经.*?）|『.*?未经.*?』)",
  "(?:【.*?音乐人.*?】|\\(.*?音乐人.*?\\)|「.*?音乐人.*?」|（.*?音乐人.*?）|『.*?音乐人.*?』)",
  ".*?未经.*?许可.*?不得.*?使用.*? ",
  ".*?未经.*?许可.*?不得.*?方式.*? ",
  "未经著作权人书面许可，\\s*不得以任何方式\\s*[(\\u\x7bFF08\x7d]包括.*?等[)\\u\x7bFF09\x7d]\\s*使用",
  ".*?发行方\\s*[：:].*?",
  ".*?(?:工作室|特别企划).*?",
  "^.*(联合|合作|总|首席)?策划\\s*[:：].*$"]

/-- ASCII model of Rust's `str::to_lowercase`, used to prepare keywords and
lines when keyword matching is case-insensitive.  (Rust performs full
Unicode lowercasing; the theorems below only exercise configurations in
which the two agree.) -/
def rustToLowercase (s : String) : String := ⟨s.data.map Char.toLower⟩

/-- Model of `get_plain_text_from_lyric_line` (metadata_stripper.rs:44):
the trimmed flat text when present and non-empty, else the trimmed
concatenation of the syllable texts. -/
def get_plain_text_from_lyric_line (line : LyricLine) : String :=
  match line.line_text with
  | some t =>
    if t ≠ "" then ⟨trimChars t.data⟩
    else ⟨trimChars (concatSyllableTexts line.main_syllables).data⟩
  | none => ⟨trimChars (concatSyllableTexts line.main_syllables).data⟩

/-- Drops everything up to and including the first occurrence of `c`
(Rust's `str::find` followed by slicing past the found character). -/
def dropThroughChar (c : Char) : List Char → Option (List Char)
  | [] => none
  | x :: rest => if x = c then some rest else dropThroughChar c rest

/-- The optional leading bracketed-tag strip of the keyword matcher
(metadata_stripper.rs:339-348): after left-trimming, one leading `[...]` or
`(...)` group is removed (when the closing bracket exists) and the rest is
left-trimmed again. -/
def stripLeadingBracketTag (cs : List Char) : List Char :=
  let t := trimLeftChars cs
  match t with
  | '[' :: _ =>
    match dropThroughChar ']' t with
    | some rest => trimLeftChars rest
    | none => t
  | '(' :: _ =>
    match dropThroughChar ')' t with
    | some rest => trimLeftChars rest
    | none => t
  | _ => t

/-- Model of the closure `line_matches_keyword_rule`
(metadata_stripper.rs:338-366): after the optional bracket strip and the
case preparation, some keyword must be a prefix of the line whose remainder
(left-trimmed) starts with a half- or full-width colon.  The keyword list
received here is already case-prepared. -/
def line_matches_keyword_rule (keyword_case_sensitive : Bool)
    (prepared_keywords : List String) (line_to_check : String) : Bool :=
  let text_after_prefix := stripLeadingBracketTag line_to_check.data
  let prepared_line :=
    if keyword_case_sensitive then text_after_prefix
    else text_after_prefix.map Char.toLower
  prepared_keywords.any (fun kw =>
    if kw.data.isPrefixOf prepared_line then
      let stripped := trimLeftChars (prepared_line.drop kw.data.length)
      stripped.head? = some ':' ∨ stripped.head? = some '：'
    else false)

/-- The index of the last `true` in a flag list, if any (the forward header
scan of the stripper keeps the last matching index). -/
def findLastTrueIdx (bs : List Bool) (i : Nat) (acc : Option Nat) :
    Option Nat :=
  match bs with
  | [] => acc
  | b :: rest => findLastTrueIdx rest (i + 1) (if b then some i else acc)

/-- Length of the trailing run of `true`s (the backward footer scan stops
at the first non-matching line from the tail). -/
def trailingTrueCount (bs : List Bool) : Nat :=
  (bs.reverse.takeWhile id).length

/-- The keyword header/footer pass of `strip_descriptive_metadata_lines`
(metadata_stripper.rs:331-407): the header boundary is one past the last
matching line among the first 20; the footer boundary is where the trailing
matching run (scanned over at most the last 10 lines, never past the header
boundary) stops; everything outside `[header, footer)` is removed, and the
whole list is cleared when the boundaries cross. -/
def stripKeywordPass (keyword_case_sensitive : Bool)
    (prepared_keywords : List String) (lines : List LyricLine) :
    List LyricLine :=
  let matchFlags := lines.map (fun l =>
    line_matches_keyword_rule keyword_case_sensitive prepared_keywords
      (get_plain_text_from_lyric_line l))
  let header_scan_limit := min 20 lines.length
  let first_lyric_line_index :=
    match findLastTrueIdx (matchFlags.take header_scan_limit) 0 none with
    | none => 0
    | some idx => idx + 1
  let last_lyric_line_exclusive_index :=
    if first_lyric_line_index < lines.length then
      let footer_scan_start_index :=
        max (lines.length - 10) first_lyric_line_index
      lines.length - trailingTrueCount (matchFlags.drop footer_scan_start_index)
    else first_lyric_line_index
  if first_lyric_line_index < last_lyric_line_exclusive_index then
    (lines.take last_lyric_line_exclusive_index).drop first_lyric_line_index
  else if 0 < first_lyric_line_index ∨
      last_lyric_line_exclusive_index < lines.length then []
  else lines

/-- The regex pass of `strip_descriptive_metadata_lines`
(metadata_stripper.rs:409-433): non-blank patterns are compiled (the
external regex engine is the oracle `regexCompile`, returning `none` for a
pattern that fails to compile) and every line whose plain text matches some
compiled pattern is removed. -/
def stripRegexPass (regexCompile : String → Bool → Option (String → Bool))
    (regex_case_sensitive : Bool) (patterns : List String)
    (lines : List LyricLine) : List LyricLine :=
  let compiled := patterns.filterMap (fun p =>
    if trimChars p.data = [] then none
    else regexCompile p regex_case_sensitive)
  if compiled.isEmpty then lines
  else lines.filter (fun line =>
    ¬ compiled.any (fun re => re (get_plain_text_from_lyric_line line)))

/-- Model of `strip_descriptive_metadata_lines` (metadata_stripper.rs:58):
keyword header/footer pass followed by the regex-removal pass, with the
early outs of the source.  The Rust function mutates the vector in place;
the model returns the new list. -/
def strip_descriptive_metadata_lines
    (regexCompile : String → Bool → Option (String → Bool))
    (opts : MetadataStripperOptions) (lines : List LyricLine) :
    List LyricLine :=
  if ¬opts.enabled then lines
  else
    let keywords_to_use := opts.keywords.getD default_keywords
    let regex_to_use := opts.regex_patterns.getD default_regex_patterns
    if lines = [] ∨ (keywords_to_use = [] ∧
        (¬opts.enable_regex_stripping ∨ regex_to_use = [])) then lines
    else
      let lines1 :=
        if keywords_to_use ≠ [] then
          let prepared_keywords :=
            if ¬opts.keyword_case_sensitive then
              keywords_to_use.map rustToLowercase
            else keywords_to_use
          stripKeywordPass opts.keyword_case_sensitive prepared_keywords lines
        else lines
      if opts.enable_regex_stripping ∧ regex_to_use ≠ [] ∧ lines1 ≠ [] then
        stripRegexPass regexCompile opts.regex_case_sensitive regex_to_use
          lines1
      else lines1

/-- A line-timed lyric line holding only a flat text, as used by the
stripper tests. -/
def simpleTextLine (t : String) : LyricLine :=
  { start_ms := 0, end_ms := 0, line_text := some t, main_syllables := [],
    translations := [], romanizations := [], agent := none,
    background_section := none, song_part := none, itunes_key := none }

/-! ### Claim C3: stripper idempotence -/

theorem filter_self_idem {α : Type} (p : α → Bool) (l : List α) :
    (l.filter p).filter p = l.filter p := by
  induction l with
  | nil => rfl
  | cons a t ih =>
    by_cases hp : p a <;> simp [List.filter_cons, hp, ih]

theorem stripRegexPass_idem
    (regexCompile : String → Bool → Option (String → Bool)) (b : Bool)
    (pats : List String) (l : List LyricLine) :
    stripRegexPass regexCompile b pats (stripRegexPass regexCompile b pats l)
      = stripRegexPass regexCompile b pats l := by
  unfold stripRegexPass
  dsimp only
  by_cases hc : (pats.filterMap (fun p =>
      if trimChars p.data = [] then none else regexCompile p b)).isEmpty
  · rw [if_pos hc, if_pos hc]
  · rw [if_neg hc, if_neg hc, filter_self_idem]

/-- **C3 counterexample.** The claim states idempotence for every line list
and every options value.  With the single keyword `"K"` and 29 plain lines
followed by 11 matching `"K: x"` lines, the footer scan (limited to the
last 10 lines) removes only the last 10 matching lines; the remaining
matching line is at the tail of the 30-line result and a second application
removes it too, so applying the stripper twice removes more lines than
applying it once. -/
theorem stripper_not_idempotent_cex :
    strip_descriptive_metadata_lines (fun _ _ => none)
      ⟨true, some ["K"], true, false, some [], true⟩
      (strip_descriptive_metadata_lines (fun _ _ => none)
        ⟨true, some ["K"], true, false, some [], true⟩
        (List.replicate 29 (simpleTextLine "a") ++
         List.replicate 11 (simpleTextLine "K: x"))) ≠
    strip_descriptive_metadata_lines (fun _ _ => none)
      ⟨true, some ["K"], true, false, some [], true⟩
      (List.replicate 29 (simpleTextLine "a") ++
       List.replicate 11 (simpleTextLine "K: x")) := by
  decide

/-- **C3 (amended).** The stripper is idempotent whenever the configured
keyword list is empty (in particular when only the regex pass is active);
with a non-empty keyword list a second application can remove further
lines, because a keyword-matching line lying just above the 10-line footer
scan window survives the first pass and sits at the tail of the list on the
second. -/
theorem stripper_idempotent_with_empty_keywords
    (regexCompile : String → Bool → Option (String → Bool))
    (opts : MetadataStripperOptions) (lines : List LyricLine)
    (h : opts.keywords = some []) :
    strip_descriptive_metadata_lines regexCompile opts
      (strip_descriptive_metadata_lines regexCompile opts lines) =
    strip_descriptive_metadata_lines regexCompile opts lines := by
  have hkw : opts.keywords.getD default_keywords = [] := by rw [h]; rfl
  by_cases hen : ¬opts.enabled
  · unfold strip_descriptive_metadata_lines
    rw [if_pos hen, if_pos hen]
  · by_cases hrx : ¬opts.enable_regex_stripping ∨
        opts.regex_patterns.getD default_regex_patterns = []
    · have hid : ∀ l : List LyricLine,
          strip_descriptive_metadata_lines regexCompile opts l = l := by
        intro l
        unfold strip_descriptive_metadata_lines
        rw [if_neg hen]
        dsimp only
        rw [hkw]
        rw [if_pos (Or.inr ⟨rfl, hrx⟩)]
      rw [hid, hid]
    · push_neg at hrx
      have hstep : ∀ l : List LyricLine,
          strip_descriptive_metadata_lines regexCompile opts l =
            if l = [] then l
            else stripRegexPass regexCompile opts.regex_case_sensitive
              (opts.regex_patterns.getD default_regex_patterns) l := by
        intro l
        unfold strip_descriptive_metadata_lines
        rw [if_neg hen]
        dsimp only
        rw [hkw]
        by_cases hl : l = []
        · rw [if_pos (Or.inl hl), if_pos hl]
        · rw [if_neg ?hc]
          case hc =>
            intro hcontra
            rcases hcontra with h1 | ⟨-, h3 | h4⟩
            · exact hl h1
            · exact h3 hrx.1
            · exact hrx.2 h4
          show (if opts.enable_regex_stripping = true ∧
              opts.regex_patterns.getD default_regex_patterns ≠ [] ∧ l ≠ []
            then stripRegexPass regexCompile opts.regex_case_sensitive
              (opts.regex_patterns.getD default_regex_patterns) l
            else l) = _
          rw [if_pos ⟨hrx.1, hrx.2, hl⟩, if_neg hl]
      rw [hstep lines, hstep]
      by_cases hl : lines = []
      · rw [if_pos hl, if_pos hl]
      · rw [if_neg hl]
        by_cases hr : stripRegexPass regexCompile opts.regex_case_sensitive
            (opts.regex_patterns.getD default_regex_patterns) lines = []
        · rw [if_pos hr, hr]
        · rw [if_neg hr, stripRegexPass_idem]

/-- Witness for C3 (amended): applied with an empty custom keyword list, an
active regex pass whose oracle matches exactly the text `"bad"`, and a
two-line list. -/
theorem stripper_idempotent_with_empty_keywords_witness :
    strip_descriptive_metadata_lines
      (fun _ _ => some (fun s => s == "bad"))
      ⟨true, some [], true, true, some ["x"], true⟩
      (strip_descriptive_metadata_lines
        (fun _ _ => some (fun s => s == "bad"))
        ⟨true, some [], true, true, some ["x"], true⟩
        [simpleTextLine "good", simpleTextLine "bad"]) =
    strip_descriptive_metadata_lines
      (fun _ _ => some (fun s => s == "bad"))
      ⟨true, some [], true, true, some ["x"], true⟩
      [simpleTextLine "good", simpleTextLine "bad"] :=
  stripper_idempotent_with_empty_keywords _ _ _ rfl

/-! ## Model of the auto word-splitter (utils.rs) -/

/-- Model of `CharType` (utils.rs:4). -/
inductive CharType where
  | Cjk
  | Latin
  | Numeric
  | Whitespace
  | Other
deriving DecidableEq, BEq

/-- Rust's `char::is_ascii_alphabetic`. -/
def rustIsAsciiAlphabetic (c : Char) : Bool :=
  ('A' ≤ c ∧ c ≤ 'Z') ∨ ('a' ≤ c ∧ c ≤ 'z')

/-- Model of `get_char_type` (utils.rs:12): whitespace, ASCII letters and
digits, the CJK / Hiragana / Katakana / Hangul blocks, and everything
else. -/
def get_char_type (c : Char) : CharType :=
  if rustIsWhitespace c then CharType.Whitespace
  else if rustIsAsciiAlphabetic c then CharType.Latin
  else if c.isDigit then CharType.Numeric
  else if (0x4E00 ≤ c.toNat ∧ c.toNat ≤ 0x9FFF) ∨
      (0x3040 ≤ c.toNat ∧ c.toNat ≤ 0x309F) ∨
      (0x30A0 ≤ c.toNat ∧ c.toNat ≤ 0x30FF) ∨
      (0xAC00 ≤ c.toNat ∧ c.toNat ≤ 0xD7AF) then CharType.Cjk
  else CharType.Other

/-- The first character of a grapheme cluster, or a space when it is empty
(Rust's `grapheme.chars().next().unwrap_or(' ')`). -/
def firstCharOrSpace (g : String) : Char := g.data.headD ' '

/-- The merge rule of `auto_tokenize` (utils.rs:41-47): only
Latin–Latin, Numeric–Numeric and Whitespace–Whitespace cluster pairs merge
into one token. -/
def sameMergeableType (lt ty : CharType) : Bool :=
  (lt == CharType.Latin && ty == CharType.Latin) ||
  (lt == CharType.Numeric && ty == CharType.Numeric) ||
  (lt == CharType.Whitespace && ty == CharType.Whitespace)

/-- The tokenizer loop of `auto_tokenize` (utils.rs:30-60) over the
grapheme-cluster list produced by the external `unicode_segmentation`
crate (abstracted as the input list). -/
def autoTokenizeGo (graphemes : List String) (current : String)
    (lastTy : Option CharType) : List String :=
  match graphemes with
  | [] => if current = "" then [] else [current]
  | g :: rest =>
    let ty := get_char_type (firstCharOrSpace g)
    let brk := match lastTy with
      | none => false
      | some lt => ! sameMergeableType lt ty
    if brk && current != "" then
      current :: autoTokenizeGo rest g (some ty)
    else autoTokenizeGo rest (current ++ g) (some ty)

/-- Model of `auto_tokenize` (utils.rs:30). -/
def auto_tokenize (graphemes : List String) : List String :=
  autoTokenizeGo graphemes "" none

/-- The weight of one token (utils.rs:77-87 and 109-113), as the numerator
of an exact fraction with denominator `pwDen`: character count for
CJK/Latin/Numeric tokens, the punctuation weight `pwNum / pwDen` for Other
tokens, zero for whitespace tokens.  The `f64` punctuation weight of the
source is the exact rational `pwNum / pwDen` (the caller passes 0.5). -/
def tokenWeightNum (pwNum pwDen : Nat) (tok : String) : Nat :=
  match get_char_type (firstCharOrSpace tok) with
  | CharType.Latin | CharType.Numeric | CharType.Cjk =>
    tok.data.length * pwDen
  | CharType.Other => pwNum
  | CharType.Whitespace => 0

/-- Rust's `Iterator::rposition`: index of the last entry satisfying the
flag. -/
def lastTrueIndex : List Bool → Option Nat
  | [] => none
  | b :: rest =>
    match lastTrueIndex rest with
    | some r => some (r + 1)
    | none => if b then some 0 else none

/-- The non-whitespace flag used for `last_visible_token_index`
(utils.rs:73-75). -/
def tokenIsVisible (tok : String) : Bool :=
  ! (get_char_type (firstCharOrSpace tok) == CharType.Whitespace)

/-- `start_ms + round(accumulated_weight * duration_per_weight)` computed
exactly: `accumulated_weight * duration_per_weight` is the rational
`accNum * dur / totalNum` (the punctuation denominator cancels), and
rounding half away from zero on a non-negative rational `p / q` is
`(2p + q) / (2q)` in integer arithmetic. -/
def roundedTokenEnd (start_ms accNum dur totalNum : Nat) : Nat :=
  start_ms + (2 * (accNum * dur) + totalNum) / (2 * totalNum)

/-- The syllable-emission loop of `split_line_into_syllables`
(utils.rs:99-130): whitespace tokens set the trailing-space flag of the
previously emitted syllable; other tokens are emitted with the rounded
cumulative end time, forced to the line's `end_ms` for the last visible
token.  `acc` holds the emitted syllables in reverse order. -/
def splitGo (tokens : List String) (idx : Nat) (lvi : Option Nat)
    (start_ms end_ms dur totalNum pwNum pwDen : Nat) (curStart accNum : Nat)
    (acc : List LyricSyllable) : List LyricSyllable :=
  match tokens with
  | [] => acc.reverse
  | tok :: rest =>
    if get_char_type (firstCharOrSpace tok) = CharType.Whitespace then
      let acc2 := match acc with
        | [] => []
        | s :: srest => { s with ends_with_space := true } :: srest
      splitGo rest (idx + 1) lvi start_ms end_ms dur totalNum pwNum pwDen
        curStart accNum acc2
    else
      let accNum2 := accNum + tokenWeightNum pwNum pwDen tok
      let te0 := roundedTokenEnd start_ms accNum2 dur totalNum
      let token_end := if some idx = lvi then end_ms else te0
      splitGo rest (idx + 1) lvi start_ms end_ms dur totalNum pwNum pwDen
        token_end accNum2
        ({ text := tok, start_ms := curStart, end_ms := token_end,
           duration_ms := some (token_end - curStart),
           ends_with_space := false } :: acc)

/-- Model of `split_line_into_syllables` (utils.rs:62): tokenize, locate
the last visible token, total the weights (`total_weight <= 0.0` is
`totalNum = 0` here since all weights are non-negative), and distribute
the duration.  The grapheme segmentation of the external crate is the
input list; the punctuation weight is the exact rational
`pwNum / pwDen`. -/
def split_line_into_syllables (graphemes : List String)
    (start_ms end_ms pwNum pwDen : Nat) : List LyricSyllable :=
  let tokens := auto_tokenize graphemes
  if tokens = [] then []
  else
    let last_visible_token_index := lastTrueIndex (tokens.map tokenIsVisible)
    let totalNum := (tokens.map (tokenWeightNum pwNum pwDen)).sum
    if totalNum = 0 then []
    else
      splitGo tokens 0 last_visible_token_index start_ms end_ms
        (end_ms - start_ms) totalNum pwNum pwDen start_ms 0 []

/-- Model of `apply_auto_word_splitting` (utils.rs:135): lines with at most
one syllable, positive duration and non-blank flat text are re-split with
punctuation weight 0.5 (= 1/2); a non-empty result replaces the line's
syllables.  The grapheme segmenter of the external crate is the oracle
`segment`. -/
def apply_auto_word_splitting (segment : String → List String)
    (lines : List LyricLine) : List LyricLine :=
  lines.map (fun line =>
    match line.line_text with
    | some t =>
      if line.main_syllables.length ≤ 1 ∧ line.start_ms < line.end_ms ∧
          ¬ trimChars t.data = [] then
        let new_syllables :=
          split_line_into_syllables (segment t) line.start_ms line.end_ms 1 2
        if new_syllables ≠ [] then
          { line with main_syllables := new_syllables }
        else line
      else line
    | none => line)

/-- `chainTo base syls finalEnd`: the syllables tile the interval from
`base` to `finalEnd` — the first starts at `base`, each next one starts
where the previous ended, and the last ends at `finalEnd` (`base =
finalEnd` for the empty list). -/
def chainTo : Nat → List LyricSyllable → Nat → Prop
  | base, [], finalEnd => base = finalEnd
  | base, s :: rest, finalEnd => s.start_ms = base ∧ chainTo s.end_ms rest finalEnd

/-- `revChain curEnd acc base`: the reversed accumulator `acc` chains from
`base` up to `curEnd`. -/
def revChain : Nat → List LyricSyllable → Nat → Prop
  | curEnd, [], base => curEnd = base
  | curEnd, s :: rest, base => s.end_ms = curEnd ∧ revChain s.start_ms rest base

/-! ### Claim C4: the split syllables tile the line interval -/

theorem chainTo_append_single (xs : List LyricSyllable) (b m fe : Nat)
    (s : LyricSyllable) (hxs : chainTo b xs m) (hs : s.start_ms = m)
    (he : s.end_ms = fe) : chainTo b (xs ++ [s]) fe := by
  induction xs generalizing b with
  | nil =>
    unfold chainTo at hxs
    subst hxs
    exact ⟨hs, he⟩
  | cons x rest ih =>
    obtain ⟨hx, hrest⟩ := hxs
    exact ⟨hx, ih _ hrest⟩

theorem revChain_to_chainTo (acc : List LyricSyllable) (curEnd base : Nat)
    (h : revChain curEnd acc base) : chainTo base acc.reverse curEnd := by
  induction acc generalizing curEnd with
  | nil =>
    unfold revChain at h
    subst h
    rfl
  | cons s rest ih =>
    obtain ⟨hend, hrest⟩ := h
    simpa using chainTo_append_single rest.reverse base s.start_ms curEnd s
      (ih _ hrest) rfl hend

theorem revChain_set_space (s : LyricSyllable) (rest : List LyricSyllable)
    (curEnd base : Nat) (h : revChain curEnd (s :: rest) base) :
    revChain curEnd ({ s with ends_with_space := true } :: rest) base := h

theorem lastTrueIndex_ne_none (bs : List Bool) (h : ∃ b ∈ bs, b = true) :
    lastTrueIndex bs ≠ none := by
  induction bs with
  | nil => simp at h
  | cons b rest ih =>
    unfold lastTrueIndex
    rcases h with ⟨x, hx, hxt⟩
    rcases List.mem_cons.mp hx with h1 | h2
    · cases hlt : lastTrueIndex rest with
      | some r => simp
      | none =>
        subst h1
        rw [hxt]
        simp
    · have := ih ⟨x, h2, hxt⟩
      cases hlt : lastTrueIndex rest with
      | some r => simp
      | none => exact absurd hlt this

/-- Specification of the emission loop: provided the accumulator already
chains from `base` to `curStart`, and the last-visible bookkeeping is
consistent (either the remaining tokens still contain the last visible one
at the recorded absolute index, or it has already been emitted with end
time `e`), the final syllable list chains from `base` all the way to `e`. -/
theorem splitGo_spec (startv e dur totalNum pwNum pwDen : Nat) :
    ∀ (tokens : List String) (idx : Nat) (lvi : Option Nat)
      (curStart accNum : Nat) (acc : List LyricSyllable) (base : Nat),
      revChain curStart acc base →
      ((∃ r, lastTrueIndex (tokens.map tokenIsVisible) = some r ∧
          lvi = some (idx + r)) ∨
       (lastTrueIndex (tokens.map tokenIsVisible) = none ∧
        ∃ s0 tl, acc = s0 :: tl ∧ s0.end_ms = e ∧
        ∀ j, lvi = some j → j < idx)) →
      chainTo base
        (splitGo tokens idx lvi startv e dur totalNum pwNum pwDen
          curStart accNum acc) e := by
  intro tokens
  induction tokens with
  | nil =>
    intro idx lvi curStart accNum acc base hacc hinv
    rcases hinv with ⟨r, hr, -⟩ | ⟨-, s0, tl, haccEq, hs0, -⟩
    · exact absurd hr (by simp [lastTrueIndex])
    · subst haccEq
      have hcs : s0.end_ms = curStart := hacc.1
      have : curStart = e := by rw [← hcs, hs0]
      subst this
      exact revChain_to_chainTo _ _ _ hacc
  | cons tok rest ih =>
    intro idx lvi curStart accNum acc base hacc hinv
    unfold splitGo
    by_cases hws : get_char_type (firstCharOrSpace tok) = CharType.Whitespace
    · rw [if_pos hws]
      have hvis : tokenIsVisible tok = false := by
        unfold tokenIsVisible
        rw [hws]
        decide
      have hmap : (tok :: rest).map tokenIsVisible =
          false :: rest.map tokenIsVisible := by simp [hvis]
      rcases hinv with ⟨r, hr, hlvi⟩ | ⟨hnone, s0, tl, haccEq, hs0, hj⟩
      · rw [hmap] at hr
        unfold lastTrueIndex at hr
        cases hrest : lastTrueIndex (rest.map tokenIsVisible) with
        | none => rw [hrest] at hr; simp at hr
        | some r' =>
          rw [hrest] at hr
          simp only [Option.some.injEq] at hr
          subst hr
          cases acc with
          | nil =>
            exact ih (idx + 1) lvi curStart accNum [] base hacc
              (Or.inl ⟨r', hrest, by rw [hlvi]; congr 1; omega⟩)
          | cons s0 tl =>
            exact ih (idx + 1) lvi curStart accNum _ base
              (revChain_set_space s0 tl curStart base hacc)
              (Or.inl ⟨r', hrest, by rw [hlvi]; congr 1; omega⟩)
      · rw [hmap] at hnone
        unfold lastTrueIndex at hnone
        cases hrest : lastTrueIndex (rest.map tokenIsVisible) with
        | some r' => rw [hrest] at hnone; simp at hnone
        | none =>
          subst haccEq
          exact ih (idx + 1) lvi curStart accNum _ base
            (revChain_set_space s0 tl curStart base hacc)
            (Or.inr ⟨hrest, { s0 with ends_with_space := true }, tl, rfl, hs0,
              fun j hjv => Nat.lt_succ_of_lt (hj j hjv)⟩)
    · rw [if_neg hws]
      have hvis : tokenIsVisible tok = true := by
        unfold tokenIsVisible
        cases hty : get_char_type (firstCharOrSpace tok) <;>
          first
            | exact absurd hty hws
            | decide
      have hmap : (tok :: rest).map tokenIsVisible =
          true :: rest.map tokenIsVisible := by simp [hvis]
      rcases hinv with ⟨r, hr, hlvi⟩ | ⟨hnone, -⟩
      · rw [hmap] at hr
        unfold lastTrueIndex at hr
        cases hrest : lastTrueIndex (rest.map tokenIsVisible) with
        | some r' =>
          rw [hrest] at hr
          simp only [Option.some.injEq] at hr
          subst hr
          have hne : ¬ some idx = lvi := by
            rw [hlvi]
            intro hcontra
            simp only [Option.some.injEq] at hcontra
            omega
          simp only [if_neg hne]
          refine ih (idx + 1) lvi _ _ _ base ⟨rfl, hacc⟩
            (Or.inl ⟨r', hrest, by rw [hlvi]; congr 1; omega⟩)
        | none =>
          rw [hrest] at hr
          simp at hr
          subst hr
          have heq : some idx = lvi := by rw [hlvi, Nat.add_zero]
          simp only [if_pos heq]
          refine ih (idx + 1) lvi _ _ _ base ⟨rfl, hacc⟩
            (Or.inr ⟨hrest, _, acc, rfl, rfl, fun j hjv => ?_⟩)
          rw [hlvi] at hjv
          simp only [Option.some.injEq] at hjv
          omega
      · rw [hmap] at hnone
        unfold lastTrueIndex at hnone
        cases hrest : lastTrueIndex (rest.map tokenIsVisible) with
        | some r' => rw [hrest] at hnone; simp at hnone
        | none => rw [hrest] at hnone; simp at hnone

/-- The total weight is zero exactly when no token carries weight; a
non-zero total guarantees a visible token. -/
theorem totalNum_ne_zero_has_visible (tokens : List String)
    (pwNum pwDen : Nat)
    (h : (tokens.map (tokenWeightNum pwNum pwDen)).sum ≠ 0) :
    ∃ b ∈ tokens.map tokenIsVisible, b = true := by
  by_contra hc
  push_neg at hc
  apply h
  apply List.sum_eq_zero
  intro x hx
  rcases List.mem_map.mp hx with ⟨tok, htok, hw⟩
  have hvis := hc (tokenIsVisible tok) (List.mem_map_of_mem _ htok)
  rw [← hw]
  unfold tokenWeightNum
  cases hty : get_char_type (firstCharOrSpace tok) <;>
    first
      | rfl
      | exact absurd (by unfold tokenIsVisible; rw [hty]; decide) hvis

/-- **C4.** Whenever the auto word-splitter actually splits a line — the
line qualifies (at most one syllable, positive duration, non-blank flat
text) and the split result is non-empty — the produced syllables tile
`[start_ms, end_ms]` with no gap or overlap: the first starts at
`start_ms`, each next one starts where the previous one ended, and the
last (visible) token's end time is exactly `end_ms`. -/
theorem auto_word_split_duration_conservation
    (segment : String → List String) (line : LyricLine) (t : String)
    (hlt : line.line_text = some t)
    (hcond : line.main_syllables.length ≤ 1 ∧
      line.start_ms < line.end_ms ∧ ¬ trimChars t.data = [])
    (hne : split_line_into_syllables (segment t) line.start_ms line.end_ms
      1 2 ≠ []) :
    apply_auto_word_splitting segment [line] =
      [{ line with main_syllables := (split_line_into_syllables (segment t)
          line.start_ms line.end_ms 1 2) }] ∧
    chainTo line.start_ms
      (split_line_into_syllables (segment t) line.start_ms line.end_ms 1 2)
      line.end_ms := by
  constructor
  · unfold apply_auto_word_splitting
    rw [List.map_singleton, hlt]
    dsimp only
    simp only [if_pos hcond, if_pos hne]
  · revert hne
    unfold split_line_into_syllables
    by_cases htok : auto_tokenize (segment t) = []
    · rw [if_pos htok]
      intro hne
      exact absurd rfl hne
    · rw [if_neg htok]
      dsimp only
      by_cases hzero :
          ((auto_tokenize (segment t)).map (tokenWeightNum 1 2)).sum = 0
      · rw [if_pos hzero]
        intro hne
        exact absurd rfl hne
      · rw [if_neg hzero]
        intro hne
        obtain ⟨r, hr⟩ := Option.ne_none_iff_exists'.mp
          (lastTrueIndex_ne_none _
            (totalNum_ne_zero_has_visible _ 1 2 hzero))
        exact splitGo_spec line.start_ms line.end_ms
          (line.end_ms - line.start_ms) _ 1 2 _ 0 _ line.start_ms 0 []
          line.start_ms rfl (Or.inl ⟨r, hr, by rw [hr]; simp⟩)

/-- Witness for C4: the theorem applied to the line `"ab 世"` (0 ms –
1000 ms) with single-character grapheme segmentation. -/
theorem auto_word_split_duration_conservation_witness :
    apply_auto_word_splitting (fun s => s.data.map (fun c => String.mk [c]))
      [{ simpleTextLine "ab 世" with end_ms := 1000 }] =
      [{ { simpleTextLine "ab 世" with end_ms := 1000 } with
          main_syllables := (split_line_into_syllables
            ((fun s => s.data.map (fun c => String.mk [c])) "ab 世")
            ({ simpleTextLine "ab 世" with end_ms := 1000 } : LyricLine).start_ms
            ({ simpleTextLine "ab 世" with end_ms := 1000 } : LyricLine).end_ms
            1 2) }] ∧
    chainTo ({ simpleTextLine "ab 世" with end_ms := 1000 } : LyricLine).start_ms
      (split_line_into_syllables
        ((fun s => s.data.map (fun c => String.mk [c])) "ab 世")
        ({ simpleTextLine "ab 世" with end_ms := 1000 } : LyricLine).start_ms
        ({ simpleTextLine "ab 世" with end_ms := 1000 } : LyricLine).end_ms 1 2)
      ({ simpleTextLine "ab 世" with end_ms := 1000 } : LyricLine).end_ms :=
  auto_word_split_duration_conservation
    (fun s => s.data.map (fun c => String.mk [c]))
    { simpleTextLine "ab 世" with end_ms := 1000 } "ab 世" rfl
    (by decide) (by decide)

/-! ## Model of the agent recognizer (agent_recognizer.rs) -/

/-- Model of `AgentRecognizerOptions` (amll_player_types.rs:50). -/
structure AgentRecognizerOptions where
  enabled : Bool
  custom_pattern : Option String
  case_sensitive : Bool
  inherit_agent : Bool
  remove_marker_lines : Bool
deriving DecidableEq

/-- The `Default` implementation of the options
(amll_player_types.rs:67-77): everything on, no custom pattern,
case-sensitive. -/
def defaultAgentOptions : AgentRecognizerOptions :=
  { enabled := true, custom_pattern := none, case_sensitive := true,
    inherit_agent := true, remove_marker_lines := true }

/-- UTF-8 byte length of a character list. -/
def utf8CharsLen (cs : List Char) : Nat := (cs.map Char.utf8Size).sum

/-- UTF-8 byte length of a string (Rust's `str::len`). -/
def utf8Len (s : String) : Nat := utf8CharsLen s.data

/-- Rust byte slicing `&s[n..]`: `none` models the panic raised when the
byte offset `n` does not fall on a UTF-8 character boundary. -/
def sliceBytesFrom : List Char → Nat → Option (List Char)
  | cs, 0 => some cs
  | [], _ + 1 => none
  | c :: rest, n + 1 =>
    if c.utf8Size ≤ n + 1 then sliceBytesFrom rest (n + 1 - c.utf8Size)
    else none

/-- The syllable-consuming loop of `clean_line_text`
(agent_recognizer.rs:89-96): returns how many whole syllables the byte
budget covers and the remaining budget. -/
def drainCount : List LyricSyllable → Nat → Nat × Nat
  | [], len => (0, len)
  | s :: rest, len =>
    if utf8Len s.text ≤ len then
      let p := drainCount rest (len - utf8Len s.text)
      (p.1 + 1, p.2)
    else (0, len)

/-- Model of `clean_line_text` (agent_recognizer.rs:84-126): removes the
matched prefix from the syllable list (whole syllables first, then a byte
slice of the first partially covered syllable — `none` models the panic
when that byte offset is not a character boundary), then fixes up the flat
text. -/
def clean_line_text (line : LyricLine) (prefix_to_remove : String) :
    Option LyricLine :=
  let step1 : Option LyricLine :=
    if line.main_syllables ≠ [] then
      let dc := drainCount line.main_syllables (utf8Len prefix_to_remove)
      let syls1 := line.main_syllables.drop dc.1
      if 0 < dc.2 then
        match syls1 with
        | [] => some { line with main_syllables := [] }
        | first :: restSyls =>
          if dc.2 < utf8Len first.text then
            match sliceBytesFrom first.text.data dc.2 with
            | some newText =>
              some { line with main_syllables :=
                  { first with text := ⟨newText⟩ } :: restSyls }
            | none => none
          else some { line with main_syllables := restSyls }
      else some { line with main_syllables := syls1 }
    else some line
  match step1 with
  | none => none
  | some l1 =>
    match l1.line_text with
    | some text =>
      if prefix_to_remove.data.isPrefixOf text.data then
        some { l1 with line_text :=
            (some ⟨text.data.drop prefix_to_remove.data.length⟩) }
      else
        if l1.main_syllables ≠ [] then
          some { l1 with line_text := some (concatSyllableTexts l1.main_syllables) }
        else some l1
    | none => some l1

/-! ### The built-in agent pattern
`^\s*(?:\((.+?)\)|（(.+?)）|([^\s:()（）]+))\s*[:：]\s*`
(agent_recognizer.rs:7), modelled as a hand-written matcher with the
leftmost-first (lazy / greedy backtracking) semantics of the `regex`
crate.  The leading `\s*` can safely take the maximal whitespace run since
no alternative can start with a whitespace character. -/

/-- Matches `\s*[:：]\s*` at the front, returning the consumed length. -/
def tailColonMatch (cs : List Char) : Option Nat :=
  let w1 := (cs.takeWhile rustIsWhitespace).length
  match cs.drop w1 with
  | c :: rest =>
    if c = ':' ∨ c = '：' then
      some (w1 + 1 + (rest.takeWhile rustIsWhitespace).length)
    else none
  | [] => none

/-- The lazy search of `(.+?)` followed by the closing bracket and the
colon tail: the shortest content (at least the one character already
consumed) wins; `.` does not match a newline.  Returns the capture and the
number of characters consumed after the opening bracket. -/
def parenAltGo (close : Char) (content : List Char) :
    List Char → Option (List Char × Nat)
  | [] => none
  | c :: after =>
    if c = close then
      match tailColonMatch after with
      | some n => some (content, content.length + 1 + n)
      | none =>
        if c = '\n' then none
        else parenAltGo close (content ++ [c]) after
    else if c = '\n' then none
    else parenAltGo close (content ++ [c]) after

/-- Membership in the character class `[^\s:()（）]`. -/
def agentNameClassChar (c : Char) : Bool :=
  ¬ rustIsWhitespace c ∧ ¬ c = ':' ∧ ¬ c = '(' ∧ ¬ c = ')' ∧
  ¬ c = '（' ∧ ¬ c = '）'

/-- The greedy backtracking of `([^\s:()（）]+)`: content lengths are tried
from the maximal class run down to 1, each followed by the colon tail. -/
def alt3Go (afterWs : List Char) : Nat → Option (List Char × Nat)
  | 0 => none
  | k + 1 =>
    match tailColonMatch (afterWs.drop (k + 1)) with
    | some n => some (afterWs.take (k + 1), (k + 1) + n)
    | none => alt3Go afterWs k

/-- The built-in agent-marker matcher: returns the raw name capture and the
full match (always a prefix of the input by construction), or `none` when
the pattern does not match at the start of the line. -/
def matchDefaultAgentPattern (s : String) : Option (String × String) :=
  let cs := s.data
  let ws := cs.takeWhile rustIsWhitespace
  let afterWs := cs.drop ws.length
  let alt : Option (List Char × Nat) :=
    match afterWs with
    | '(' :: c1 :: rest =>
      if c1 = '\n' then none
      else (parenAltGo ')' [c1] rest).map (fun p => (p.1, p.2 + 1))
    | '（' :: c1 :: rest =>
      if c1 = '\n' then none
      else (parenAltGo '）' [c1] rest).map (fun p => (p.1, p.2 + 1))
    | _ => alt3Go afterWs ((afterWs.takeWhile agentNameClassChar).length)
  match alt with
  | none => none
  | some (content, consumed) =>
    some (⟨content⟩, ⟨cs.take (ws.length + consumed)⟩)

/-- Model of `get_line_text` (agent_recognizer.rs:71): the flat text when
present, else the concatenation of the syllable texts. -/
def get_line_text (line : LyricLine) : String :=
  match line.line_text with
  | some t => t
  | none => concatSyllableTexts line.main_syllables

/-- The per-line loop of `recognize_agents` (agent_recognizer.rs:27-66),
threading the current-singer context; `none` models a panic inside
`clean_line_text`.  The regex engine is the `matcher` parameter
(`matchDefaultAgentPattern` for the built-in pattern). -/
def recognizeAgentsGo (matcher : String → Option (String × String))
    (opts : AgentRecognizerOptions) (current : Option String) :
    List LyricLine → Option (List LyricLine)
  | [] => some []
  | line :: rest =>
    let full_text := get_line_text line
    match matcher full_text with
    | some p =>
      let name : String := ⟨trimChars p.1.data⟩
      if p.2.data.isPrefixOf full_text.data then
        let remaining := full_text.data.drop p.2.data.length
        if trimChars remaining = [] then
          if opts.remove_marker_lines then
            recognizeAgentsGo matcher opts (some name) rest
          else
            match clean_line_text line p.2 with
            | none => none
            | some line2 =>
              (recognizeAgentsGo matcher opts (some name) rest).map
                (line2 :: ·)
        else
          match clean_line_text { line with agent := some name } p.2 with
          | none => none
          | some line2 =>
            (recognizeAgentsGo matcher opts (some name) rest).map (line2 :: ·)
      else
        (recognizeAgentsGo matcher opts current rest).map (line :: ·)
    | none =>
      let line1 :=
        if opts.inherit_agent then { line with agent := current } else line
      (recognizeAgentsGo matcher opts current rest).map (line1 :: ·)

/-- Model of `recognize_agents` (agent_recognizer.rs:17). -/
def recognize_agents (matcher : String → Option (String × String))
    (opts : AgentRecognizerOptions) (lines : List LyricLine) :
    Option (List LyricLine) :=
  if ¬opts.enabled then some lines
  else recognizeAgentsGo matcher opts none lines

/-! ### Claim C5: agent recognition on concrete lines -/

/-- **C5.** With the default options (inheritance and marker-removal on):
`"汪：摘一颗苹果"` followed by the marker-free `"等你看我从门前过"` yields
singer `"汪"` on both lines with the first line's text reduced to
`"摘一颗苹果"`; and the pure marker line `"TwoP:"` is removed while both
following marker-free lines inherit singer `"TwoP"`. -/
theorem agent_inheritance_and_marker_removal :
    recognize_agents matchDefaultAgentPattern defaultAgentOptions
      [simpleTextLine "汪：摘一颗苹果", simpleTextLine "等你看我从门前过"] =
      some [{ simpleTextLine "摘一颗苹果" with agent := some "汪" },
            { simpleTextLine "等你看我从门前过" with agent := some "汪" }] ∧
    recognize_agents matchDefaultAgentPattern defaultAgentOptions
      [simpleTextLine "TwoP:", simpleTextLine "都说爱情要慢慢来",
       simpleTextLine "我的那个她却又慢半拍"] =
      some [{ simpleTextLine "都说爱情要慢慢来" with agent := some "TwoP" },
            { simpleTextLine "我的那个她却又慢半拍" with agent := some "TwoP" }] := by
  constructor
  · decide
  · decide

/-! ### Claim C10: totality of the prefix removal -/

/-- **C10 counterexample.** The claim states that prefix removal never
panics even when the flat text differs from the syllable concatenation.
With flat text `"AB: X"` (prefix `"AB: "` = 4 bytes matched) over the
single syllable `"汪汪"` (UTF-8 bytes 3+3), the slice offset 4 falls inside
the second `汪` and the byte slice panics (modelled by `none`). -/
theorem agent_prefix_removal_panics_cex :
    recognize_agents matchDefaultAgentPattern defaultAgentOptions
      [{ simpleTextLine "AB: X" with
          main_syllables := [⟨"汪汪", 0, 0, none, false⟩] }] = none := by
  decide

theorem utf8CharsLen_cons (c : Char) (l : List Char) :
    utf8CharsLen (c :: l) = c.utf8Size + utf8CharsLen l := by
  simp [utf8CharsLen]

theorem utf8CharsLen_append (a b : List Char) :
    utf8CharsLen (a ++ b) = utf8CharsLen a + utf8CharsLen b := by
  simp [utf8CharsLen]

theorem utf8CharsLen_eq_zero (t : List Char) (h : utf8CharsLen t = 0) :
    t = [] := by
  cases t with
  | nil => rfl
  | cons c rest =>
    exfalso
    rw [utf8CharsLen_cons] at h
    have := Char.utf8Size_pos c
    omega

theorem sliceBytesFrom_cons_of_le (c : Char) (rest : List Char) (n : Nat)
    (h0 : 0 < n) (hle : c.utf8Size ≤ n) :
    sliceBytesFrom (c :: rest) n = sliceBytesFrom rest (n - c.utf8Size) := by
  cases n with
  | zero => omega
  | succ m =>
    show (if c.utf8Size ≤ m + 1 then sliceBytesFrom rest (m + 1 - c.utf8Size)
      else none) = _
    rw [if_pos hle]

/-- Slicing a string at the byte length of one of its character-level
prefixes always lands on a character boundary. -/
theorem sliceBytesFrom_of_prefix (q : List Char) :
    ∀ cs, q <+: cs →
      sliceBytesFrom cs (utf8CharsLen q) = some (cs.drop q.length) := by
  induction q with
  | nil =>
    intro cs h
    simp [utf8CharsLen, sliceBytesFrom]
  | cons c q' ih =>
    intro cs h
    obtain ⟨t, ht⟩ := h
    subst ht
    have hsz := Char.utf8Size_pos c
    rw [List.cons_append, utf8CharsLen_cons,
      sliceBytesFrom_cons_of_le c (q' ++ t) _ (by omega) (by omega)]
    have hsub : c.utf8Size + utf8CharsLen q' - c.utf8Size = utf8CharsLen q' := by
      omega
    rw [hsub, ih (q' ++ t) (List.prefix_append q' t)]
    rfl

/-- The byte budget left after the whole-syllable drain is the byte length
of a character-level prefix of the first remaining syllable (or zero). -/
theorem drainCount_boundary :
    ∀ (syls : List LyricSyllable) (p : List Char),
      p <+: (syls.map (fun s => s.text.data)).flatten →
      (drainCount syls (utf8CharsLen p)).2 = 0 ∨
      ∃ first rest q,
        syls.drop (drainCount syls (utf8CharsLen p)).1 = first :: rest ∧
        q <+: first.text.data ∧
        (drainCount syls (utf8CharsLen p)).2 = utf8CharsLen q := by
  intro syls
  induction syls with
  | nil =>
    intro p hp
    simp only [List.map_nil, List.flatten_nil, List.prefix_nil] at hp
    subst hp
    left
    rfl
  | cons s rest ih =>
    intro p hp
    simp only [List.map_cons, List.flatten_cons] at hp
    by_cases hlen : utf8Len s.text ≤ utf8CharsLen p
    · have hsp : s.text.data <+: p := by
        rcases List.prefix_or_prefix_of_prefix
          (List.prefix_append s.text.data _) hp with h1 | h1
        · exact h1
        · obtain ⟨t, ht⟩ := h1
          have hlen2 : utf8CharsLen s.text.data =
              utf8CharsLen p + utf8CharsLen t := by
            rw [← utf8CharsLen_append, ht]
          have ht0 : utf8CharsLen t = 0 := by
            unfold utf8Len at hlen
            omega
          rw [utf8CharsLen_eq_zero t ht0, List.append_nil] at ht
          exact ht ▸ List.prefix_refl p
      obtain ⟨p2, hp2⟩ := hsp
      subst hp2
      have hp2pre : p2 <+: (rest.map (fun s => s.text.data)).flatten := by
        obtain ⟨t, ht⟩ := hp
        rw [List.append_assoc] at ht
        exact ⟨t, List.append_cancel_left ht⟩
      have hdc : drainCount (s :: rest) (utf8CharsLen (s.text.data ++ p2)) =
          ((drainCount rest (utf8CharsLen p2)).1 + 1,
           (drainCount rest (utf8CharsLen p2)).2) := by
        show (if utf8Len s.text ≤ utf8CharsLen (s.text.data ++ p2) then _
          else _) = _
        rw [if_pos (by rw [utf8CharsLen_append]; unfold utf8Len; omega)]
        rw [utf8CharsLen_append]
        have : utf8CharsLen s.text.data + utf8CharsLen p2 -
            utf8Len s.text = utf8CharsLen p2 := by
          unfold utf8Len
          omega
        rw [this]
      rcases ih p2 hp2pre with h0 | ⟨first, rest2, q, hdrop, hq, hlen2⟩
      · left
        rw [hdc]
        exact h0
      · right
        refine ⟨first, rest2, q, ?_, hq, ?_⟩
        · rw [hdc, List.drop_succ_cons]
          exact hdrop
        · rw [hdc]
          exact hlen2
    · have hps : p <+: s.text.data := by
        rcases List.prefix_or_prefix_of_prefix hp
          (List.prefix_append s.text.data _) with h1 | h1
        · exact h1
        · exfalso
          apply hlen
          obtain ⟨t, ht⟩ := h1
          have : utf8CharsLen p = utf8CharsLen s.text.data + utf8CharsLen t := by
            rw [← utf8CharsLen_append, ht]
          unfold utf8Len
          omega
      have hdc : drainCount (s :: rest) (utf8CharsLen p) =
          (0, utf8CharsLen p) := by
        show (if utf8Len s.text ≤ utf8CharsLen p then _ else _) = _
        rw [if_neg hlen]
      by_cases hz : utf8CharsLen p = 0
      · left
        rw [hdc]
        exact hz
      · right
        refine ⟨s, rest, p, ?_, hps, ?_⟩
        · rw [hdc]
          rfl
        · rw [hdc]

/-- The syllable-consuming half of `clean_line_text` cannot panic when the
removed prefix is a character-level prefix of the concatenated syllable
texts. -/
theorem clean_line_text_total (line : LyricLine) (p : String)
    (h : p.data <+: (concatSyllableTexts line.main_syllables).data) :
    clean_line_text line p ≠ none := by
  have hflat : (concatSyllableTexts line.main_syllables).data =
      (line.main_syllables.map (fun s => s.text.data)).flatten := rfl
  rw [hflat] at h
  unfold clean_line_text
  have hstep : (if line.main_syllables ≠ [] then
      let dc := drainCount line.main_syllables (utf8Len p)
      let syls1 := line.main_syllables.drop dc.1
      if 0 < dc.2 then
        match syls1 with
        | [] => some { line with main_syllables := [] }
        | first :: restSyls =>
          if dc.2 < utf8Len first.text then
            match sliceBytesFrom first.text.data dc.2 with
            | some newText =>
              some { line with main_syllables :=
                  { first with text := ⟨newText⟩ } :: restSyls }
            | none => none
          else some { line with main_syllables := restSyls }
      else some { line with main_syllables := syls1 }
    else some line) ≠ none := by
    by_cases hs : line.main_syllables ≠ []
    · rw [if_pos hs]
      rcases drainCount_boundary line.main_syllables p.data h with
        h0 | ⟨first, rest2, q, hdrop, hq, hlenq⟩
      · have : ¬ 0 < (drainCount line.main_syllables (utf8Len p)).2 := by
          unfold utf8Len
          omega
        simp only [if_neg this]
        simp
      · by_cases hpos : 0 < (drainCount line.main_syllables (utf8Len p)).2
        · simp only [if_pos hpos]
          have hdrop2 : line.main_syllables.drop
              (drainCount line.main_syllables (utf8Len p)).1 =
              first :: rest2 := hdrop
          rw [hdrop2]
          by_cases hlt : (drainCount line.main_syllables (utf8Len p)).2 <
              utf8Len first.text
          · simp only [if_pos hlt]
            have hslice : sliceBytesFrom first.text.data
                (drainCount line.main_syllables (utf8Len p)).2 =
                some (first.text.data.drop q.length) := by
              have hUL : utf8Len p = utf8CharsLen p.data := rfl
              rw [hUL, hlenq]
              exact sliceBytesFrom_of_prefix q first.text.data hq
            rw [hslice]
            simp
          · simp only [if_neg hlt]
            simp
        · simp only [if_neg hpos]
          simp
    · rw [if_neg hs]
      simp
  rcases Option.ne_none_iff_exists'.mp hstep with ⟨l1, hl1⟩
  dsimp only
  rw [hl1]
  dsimp only
  cases hlt : l1.line_text with
  | none => simp
  | some t =>
    dsimp only
    split
    · simp
    · split <;> simp

theorem recognizeAgentsGo_total
    (matcher : String → Option (String × String))
    (opts : AgentRecognizerOptions) :
    ∀ (lines : List LyricLine) (current : Option String),
      (∀ line ∈ lines, line.line_text = none ∨
        line.line_text = some (concatSyllableTexts line.main_syllables)) →
      recognizeAgentsGo matcher opts current lines ≠ none := by
  intro lines
  induction lines with
  | nil =>
    intro current h
    simp [recognizeAgentsGo]
  | cons line rest ih =>
    intro current h
    have hline := h line (by simp)
    have hrest : ∀ l ∈ rest, l.line_text = none ∨
        l.line_text = some (concatSyllableTexts l.main_syllables) :=
      fun l hl => h l (by simp [hl])
    have hget : get_line_text line = concatSyllableTexts line.main_syllables ∨
        get_line_text line = get_line_text line := by
      rcases hline with h1 | h1
      · left
        unfold get_line_text
        rw [h1]
      · left
        unfold get_line_text
        rw [h1]
    have hgeteq : get_line_text line = concatSyllableTexts line.main_syllables := by
      rcases hget with h1 | -
      · exact h1
      · rcases hline with h1 | h1 <;>
          first
            | (unfold get_line_text; rw [h1])
    unfold recognizeAgentsGo
    dsimp only
    cases hm : matcher (get_line_text line) with
    | none =>
      obtain ⟨r, hr⟩ := Option.ne_none_iff_exists'.mp (ih current hrest)
      rw [hr]
      simp
    | some p =>
      dsimp only
      by_cases hpre : p.2.data.isPrefixOf (get_line_text line).data = true
      · rw [if_pos hpre]
        have hprefix : p.2.data <+:
            (concatSyllableTexts line.main_syllables).data := by
          rw [← hgeteq]
          exact List.isPrefixOf_iff_prefix.mp hpre
        by_cases hmt :
            trimChars ((get_line_text line).data.drop p.2.data.length) = []
        · rw [if_pos hmt]
          by_cases hrm : opts.remove_marker_lines = true
          · rw [if_pos hrm]
            exact ih _ hrest
          · rw [if_neg hrm]
            cases hc : clean_line_text line p.2 with
            | none => exact absurd hc (clean_line_text_total line p.2 hprefix)
            | some l2 =>
              obtain ⟨r, hr⟩ := Option.ne_none_iff_exists'.mp (ih _ hrest)
              rw [hr]
              simp
        · rw [if_neg hmt]
          cases hc : clean_line_text
              { line with agent := some ⟨trimChars p.1.data⟩ } p.2 with
          | none => exact absurd hc (clean_line_text_total _ p.2 hprefix)
          | some l2 =>
            obtain ⟨r, hr⟩ := Option.ne_none_iff_exists'.mp (ih _ hrest)
            rw [hr]
            simp
      · rw [if_neg hpre]
        obtain ⟨r, hr⟩ := Option.ne_none_iff_exists'.mp (ih current hrest)
        rw [hr]
        simp

/-- **C10 (amended).** For every matcher and options, the agent
recognizer's prefix removal is total — no byte slice panics — whenever
each line's flat text is absent or equal to the concatenation of its
syllable texts; when the flat text differs from the concatenation the
slice offset can fall inside a multi-byte character and the removal
panics. -/
theorem agent_prefix_removal_total
    (matcher : String → Option (String × String))
    (opts : AgentRecognizerOptions) (lines : List LyricLine)
    (h : ∀ line ∈ lines, line.line_text = none ∨
      line.line_text = some (concatSyllableTexts line.main_syllables)) :
    recognize_agents matcher opts lines ≠ none := by
  unfold recognize_agents
  by_cases he : ¬opts.enabled
  · rw [if_pos he]
    simp
  · rw [if_neg he]
    exact recognizeAgentsGo_total matcher opts lines none h

/-- Witness for C10 (amended): applied at a syllable-timed line (no flat
text) whose marker prefix `"BY2： "` splits across multi-byte syllables. -/
theorem agent_prefix_removal_total_witness :
    recognize_agents matchDefaultAgentPattern defaultAgentOptions
      [{ start_ms := 0, end_ms := 0, line_text := none,
         main_syllables := [⟨"BY2", 0, 0, none, false⟩,
           ⟨"： ", 0, 0, none, false⟩, ⟨"像", 0, 0, none, false⟩],
         translations := [], romanizations := [], agent := none,
         background_section := none, song_part := none,
         itunes_key := none }] ≠
      none :=
  agent_prefix_removal_total matchDefaultAgentPattern defaultAgentOptions _
    (by
      intro l hl
      simp only [List.mem_singleton] at hl
      subst hl
      left
      rfl)

end TtmlProcessor
